import Mathlib

/-!
Verification of the arqui-riscv simulator core: a shallow embedding of the
instruction codec (`riscv/isa.py`), the cache / bus / main-memory subsystem
(`riscv/memory.py`) and the processor pipeline stages (`riscv/core.py`),
together with proofs of the specified properties.
-/

/-! ## Instruction codec (`riscv/isa.py`) -/

def M_OPCD : Nat := 0x000000FF

def M_ARG1 : Nat := 0x00001F00

def M_ARG2 : Nat := 0x0003E000

def M_ARG3 : Nat := 0xFFFC0000

def BS_OPCD : Nat := 0

def BS_ARG1 : Nat := 8

def BS_ARG2 : Nat := 13

def BS_ARG3 : Nat := 18

def INS_LENGTH : Nat := 32

/-- Python `x << n` on an arbitrary (possibly negative) integer: exact
multiplication by `2 ^ n`. -/
def pyShl (x : Int) (n : Nat) : Int := x * 2 ^ n

/-- Python `x & m` where `x` is a possibly negative arbitrary-precision integer
(two's complement) and `m` a nonnegative mask below `2 ^ 32`.  Reducing `x`
modulo `2 ^ 32` first is exact because the mask has no bits at or above
position 32. -/
def pyAnd32 (x : Int) (m : Nat) : Nat := (x % (2 ^ 32 : Int)).toNat &&& m

def dec_opcode (instruction : Nat) : Nat := (instruction &&& M_OPCD) >>> BS_OPCD

def dec_arg1 (instruction : Nat) : Nat := (instruction &&& M_ARG1) >>> BS_ARG1

def dec_arg2 (instruction : Nat) : Nat := (instruction &&& M_ARG2) >>> BS_ARG2

def dec_arg3 (instruction : Nat) : Int :=
  let data_raw := (instruction &&& M_ARG3) >>> BS_ARG3
  let arg_bits := INS_LENGTH - BS_ARG3
  if data_raw &&& 2 ^ (arg_bits - 1) ≠ 0 then
    -((2 ^ arg_bits : Int) - (data_raw : Int))
  else
    (data_raw : Int)

def decode (instruction : Nat) : Nat × Nat × Nat × Int :=
  (dec_opcode instruction, dec_arg1 instruction, dec_arg2 instruction,
    dec_arg3 instruction)

def encode (opcode a1 a2 : Nat) (a3 : Int) : Nat :=
  (opcode &&& M_OPCD) |||
    ((a1 <<< BS_ARG1) &&& M_ARG1) |||
    ((a2 <<< BS_ARG2) &&& M_ARG2) |||
    pyAnd32 (pyShl a3 BS_ARG3) M_ARG3

/-! ## Cache, main memory and bus (`riscv/memory.py`)

The simulator's locking, barrier waits and cycle penalties (`_wait_penalty`,
`_acquire_local`, `_acquire_with_bus`, `BUS_DOWNTIME`, `MEMORY_LOAD_PENALTY`)
only spend simulated time; they do not touch cache, register or memory data,
so the state-transforming denotation of each operation below elides them.  The
two-phase loop of each operation runs phase A and, when phase A does not
finish, phase B exactly once, which is how the `while not op_finished` loop of
the source executes; in this sequential denotation no other thread runs
between the phases.  Bookkeeping fields used only for logging or for `assert`
range checks (`name`, `address`, `palabras`, `bpp` of a block, the
`start_addr`/`end_addr` bounds) are elided; list updates out of range are
no-ops where Python would abort. -/

def FI : Nat := 0

def FC : Nat := 1

def FM : Nat := 2

/-- A cache line: the tag is the cached block number (`-1` when never
filled), the flag is one of `FI`/`FC`/`FM`, `data` holds the block's words. -/
structure CacheBlock where
  tag : Int
  flag : Nat
  data : List Int
deriving Repr, DecidableEq, Inhabited

/-- A cache set: `fifo` is the next-victim pointer, `lines` the ways. -/
structure CacheSet where
  fifo : Nat
  lines : List CacheBlock
deriving Repr, DecidableEq, Inhabited

/-- An associative cache: geometry parameters, the sets, and the reserved
block number `lr_dir` (`-1` = no reservation). -/
structure CacheMemAssoc where
  assoc : Nat
  num_sets : Nat
  bpp : Nat
  ppb : Nat
  sets : List CacheSet
  lr_dir : Int
deriving Repr, DecidableEq, Inhabited

/-- Main memory: `blocks` holds the data words of each block. -/
structure RamMemory where
  start_addr : Nat
  bpp : Nat
  ppb : Nat
  blocks : List (List Int)
deriving Repr, DecidableEq, Inhabited

/-- The shared bus together with the memory and caches it connects. -/
structure Bus where
  memory : RamMemory
  caches : List CacheMemAssoc
deriving Repr, DecidableEq, Inhabited

/-- `CacheMemAssoc._process_address`: block number, word offset, set index
and tag (the tag is the whole block number) of an address. -/
def process_address (c : CacheMemAssoc) (addr : Nat) : Nat × Nat × Nat × Nat :=
  let block := addr / (c.ppb * c.bpp)
  let offset := (addr % (c.ppb * c.bpp)) / c.bpp
  let index := block % c.num_sets
  (block, offset, index, block)

/-- The line of `c` at set `si`, way `j` (defaulting out of range). -/
def lineAt (c : CacheMemAssoc) (si j : Nat) : CacheBlock :=
  (c.sets.getD si default).lines.getD j default

/-- Replace the line of `c` at set `si`, way `j` (no-op out of range). -/
def setLine (c : CacheMemAssoc) (si j : Nat) (b : CacheBlock) : CacheMemAssoc :=
  let s := c.sets.getD si default
  { c with sets := c.sets.set si { s with lines := s.lines.set j b } }

/-- `CacheMemAssoc._find`: position of the first line of set `index` whose
tag matches and whose flag is not Invalid, if any. -/
def find (c : CacheMemAssoc) (index tag : Nat) : Option Nat :=
  (c.sets.getD index default).lines.findIdx?
    (fun b => b.tag == (tag : Int) && b.flag != FI)

/-- `RamMemory._find` / `get`: index of the block containing `addr`. -/
def RamMemory.blockIndex (m : RamMemory) (addr : Nat) : Nat :=
  (addr - m.start_addr) / (m.ppb * m.bpp)

/-- `RamMemory.get`: data of the block containing `addr`. -/
def RamMemory.get (m : RamMemory) (addr : Nat) : List Int :=
  m.blocks.getD (m.blockIndex addr) []

/-- `RamMemory.set`: overwrite the block containing `addr`. -/
def RamMemory.set (m : RamMemory) (addr : Nat) (data : List Int) : RamMemory :=
  { m with blocks := m.blocks.set (m.blockIndex addr) data }

/-- The word-copying loop of `RamMemory.load`, carrying the running block
index and word offset. -/
def loadAux (ppb : Nat) (blocks : List (List Int)) (bn off : Nat) :
    List Int → List (List Int)
  | [] => blocks
  | datum :: rest =>
    let blocks' := blocks.set bn ((blocks.getD bn []).set off datum)
    if off + 1 ≥ ppb then loadAux ppb blocks' (bn + 1) 0 rest
    else loadAux ppb blocks' bn (off + 1) rest

/-- `RamMemory.load`: bulk-load consecutive words starting at `addr`,
spilling into successive blocks. -/
def RamMemory.load (m : RamMemory) (addr : Nat) (data : List Int) : RamMemory :=
  let bn := (addr - m.start_addr) / (m.ppb * m.bpp)
  let off := ((addr - m.start_addr) % (m.ppb * m.bpp)) / m.bpp
  { m with blocks := loadAux m.ppb m.blocks bn off data }

/-- `Bus.write_back`: write a cache block's words to memory. -/
def Bus.write_back (bus : Bus) (addr : Nat) (data : List Int) : Bus :=
  { bus with memory := bus.memory.set addr data }

/-- `CacheMemAssoc.snoop_find` as run on the cache at position `i`: clear the
reservation when asked and the block number matches, then look the block up. -/
def snoop_find (c : CacheMemAssoc) (addr : Nat) (invalidate_reserve : Bool) :
    CacheMemAssoc × Option Nat :=
  let (block_num, _, index, tag) := process_address c addr
  let c :=
    if invalidate_reserve && ((block_num : Int) == c.lr_dir) then
      { c with lr_dir := -1 }
    else c
  (c, find c index tag)

/-- The peer-iteration loop of `Bus.snoop_shared` over the cache positions in
`idxs`: on the first hit, write back and downgrade to Shared if the copy was
Modified, snapshot the data and stop. -/
def snoop_shared_go (mem : RamMemory) (caches : List CacheMemAssoc)
    (addr : Nat) : List Nat → RamMemory × List CacheMemAssoc × Option (List Int)
  | [] => (mem, caches, none)
  | i :: rest =>
    let c := caches.getD i default
    let (c, found) := snoop_find c addr false
    match found with
    | some j =>
      let (_, _, index, _) := process_address c addr
      let b := lineAt c index j
      if b.flag == FM then
        (mem.set addr b.data, caches.set i (setLine c index j { b with flag := FC }),
          some b.data)
      else
        (mem, caches.set i c, some b.data)
    | none => snoop_shared_go mem (caches.set i c) addr rest

/-- `Bus.snoop_shared`: returns the updated bus and the requested block's
data, falling back to memory when no peer holds it. -/
def Bus.snoop_shared (bus : Bus) (addr : Nat) (requester : Nat) :
    Bus × List Int :=
  let idxs := (List.range bus.caches.length).filter (· ≠ requester)
  match snoop_shared_go bus.memory bus.caches addr idxs with
  | (mem, caches, some d) => (⟨mem, caches⟩, d)
  | (mem, caches, none) => (⟨mem, caches⟩, mem.get addr)

/-- The peer-iteration loop of `Bus.snoop_exclusive`: every peer's
reservation on the block is invalidated; a Modified copy is written back,
invalidated and snapshotted (stop), a Shared copy is invalidated and the
iteration continues. -/
def snoop_exclusive_go (mem : RamMemory) (caches : List CacheMemAssoc)
    (addr : Nat) : List Nat → RamMemory × List CacheMemAssoc × Option (List Int)
  | [] => (mem, caches, none)
  | i :: rest =>
    let c := caches.getD i default
    let (c, found) := snoop_find c addr true
    match found with
    | some j =>
      let (_, _, index, _) := process_address c addr
      let b := lineAt c index j
      if b.flag == FM then
        (mem.set addr b.data, caches.set i (setLine c index j { b with flag := FI }),
          some b.data)
      else
        snoop_exclusive_go mem
          (caches.set i (setLine c index j { b with flag := FI })) addr rest
    | none => snoop_exclusive_go mem (caches.set i c) addr rest

/-- `Bus.snoop_exclusive`: returns the updated bus and the requested block's
data, falling back to memory when no peer had it Modified. -/
def Bus.snoop_exclusive (bus : Bus) (addr : Nat) (requester : Nat) :
    Bus × List Int :=
  let idxs := (List.range bus.caches.length).filter (· ≠ requester)
  match snoop_exclusive_go bus.memory bus.caches addr idxs with
  | (mem, caches, some d) => (⟨mem, caches⟩, d)
  | (mem, caches, none) => (⟨mem, caches⟩, mem.get addr)

/-- `CacheMemAssoc._find_victim` on the cache at position `ci`: write back
the FIFO victim if Modified, advance the FIFO pointer modulo the
associativity, invalidate the victim; returns the victim's way. -/
def find_victim (bus : Bus) (ci index : Nat) : Bus × Nat :=
  let c := bus.caches.getD ci default
  let s := c.sets.getD index default
  let victim_i := s.fifo
  let victim_b := s.lines.getD victim_i default
  let bus :=
    if victim_b.flag == FM then
      bus.write_back ((victim_b.tag * (c.ppb * c.bpp : Int)).toNat) victim_b.data
    else bus
  let s' := { s with fifo := (victim_i + 1) % c.assoc,
                     lines := s.lines.set victim_i { victim_b with flag := FI } }
  let c' := { c with sets := c.sets.set index s' }
  ({ bus with caches := bus.caches.set ci c' }, victim_i)

/-- Clear the reservation of the cache at `ci` when it covers `block_num`
(the `if self.lr_dir == block_num: self.lr_dir = -1` idiom). -/
def clear_reserve (bus : Bus) (ci : Nat) (block_num : Nat) : Bus :=
  let c := bus.caches.getD ci default
  if c.lr_dir == (block_num : Int) then
    { bus with caches := bus.caches.set ci { c with lr_dir := -1 } }
  else bus

/-- `CacheMemAssoc.load` on the cache at position `ci` (phases A and B):
returns the updated bus, the word read, and whether it was a hit. -/
def cache_load (bus : Bus) (ci : Nat) (addr : Nat) : Bus × Int × Bool :=
  let c := bus.caches.getD ci default
  let (block_num, offset, index, tag) := process_address c addr
  match find c index tag with
  | some j => (bus, (lineAt c index j).data.getD offset 0, true)
  | none =>
    match find c index tag with
    | some j => (bus, (lineAt c index j).data.getD offset 0, false)
    | none =>
      let (bus, victim_i) := find_victim bus ci index
      let (bus, mem_b) := bus.snoop_shared addr ci
      let c := bus.caches.getD ci default
      let victim_b := lineAt c index victim_i
      let victim_b := { victim_b with data := mem_b, flag := FC, tag := (block_num : Int) }
      let bus := { bus with caches := bus.caches.set ci (setLine c index victim_i victim_b) }
      (bus, mem_b.getD offset 0, false)

/-- Phase B of `CacheMemAssoc.store` (entered on a Shared hit or a miss). -/
def store_busphase (bus : Bus) (ci : Nat) (addr : Nat) (val : Int)
    (block_num offset index tag : Nat) (hit : Bool) : Bus × Bool :=
  let c := bus.caches.getD ci default
  match find c index tag with
  | some j =>
    let b := lineAt c index j
    let bus := if b.flag == FM then bus else (bus.snoop_exclusive addr ci).1
    let c := bus.caches.getD ci default
    let b := lineAt c index j
    let b := { b with data := b.data.set offset val, flag := FM }
    let bus := { bus with caches := bus.caches.set ci (setLine c index j b) }
    (clear_reserve bus ci block_num, hit)
  | none =>
    let (bus, victim_i) := find_victim bus ci index
    let (bus, mem_b) := bus.snoop_exclusive addr ci
    let c := bus.caches.getD ci default
    let victim_b := lineAt c index victim_i
    let victim_b := { victim_b with data := mem_b.set offset val, flag := FM,
                                    tag := (block_num : Int) }
    let bus := { bus with caches := bus.caches.set ci (setLine c index victim_i victim_b) }
    (clear_reserve bus ci block_num, false)

/-- `CacheMemAssoc.store` on the cache at position `ci`: returns the updated
bus and whether it was a hit. -/
def cache_store (bus : Bus) (ci : Nat) (addr : Nat) (val : Int) : Bus × Bool :=
  let c := bus.caches.getD ci default
  let (block_num, offset, index, tag) := process_address c addr
  match find c index tag with
  | some j =>
    let b := lineAt c index j
    if b.flag == FM then
      let c := setLine c index j { b with data := b.data.set offset val }
      let c := if c.lr_dir == (block_num : Int) then { c with lr_dir := -1 } else c
      ({ bus with caches := bus.caches.set ci c }, true)
    else
      store_busphase bus ci addr val block_num offset index tag true
  | none => store_busphase bus ci addr val block_num offset index tag false

/-- `CacheMemAssoc.load_reserved` on the cache at position `ci`: like `load`
but records the reservation on completion. -/
def cache_load_reserved (bus : Bus) (ci : Nat) (addr : Nat) : Bus × Int × Bool :=
  let c := bus.caches.getD ci default
  let (block_num, offset, index, tag) := process_address c addr
  match find c index tag with
  | some j =>
    ({ bus with caches := bus.caches.set ci { c with lr_dir := (block_num : Int) } },
      (lineAt c index j).data.getD offset 0, true)
  | none =>
    let (bus, victim_i) := find_victim bus ci index
    let (bus, mem_b) := bus.snoop_shared addr ci
    let c := bus.caches.getD ci default
    let victim_b := lineAt c index victim_i
    let c := setLine c index victim_i
      { victim_b with data := mem_b, flag := FC, tag := (block_num : Int) }
    let bus := { bus with caches := bus.caches.set ci { c with lr_dir := (block_num : Int) } }
    (bus, mem_b.getD offset 0, false)

/-- Phase B of `CacheMemAssoc.store_conditional`: the write commits only if
the reservation is still on this block; the reservation is then consumed. -/
def sc_busphase (bus : Bus) (ci : Nat) (addr : Nat) (val : Int)
    (block_num offset index tag : Nat) (hit : Bool) : Bus × Bool × Bool :=
  let c := bus.caches.getD ci default
  match find c index tag with
  | some j =>
    let b := lineAt c index j
    let bus := if b.flag == FM then bus else (bus.snoop_exclusive addr ci).1
    let c := bus.caches.getD ci default
    let b := lineAt c index j
    let (b, success) :=
      if c.lr_dir == (block_num : Int) then
        ({ b with data := b.data.set offset val }, true)
      else (b, false)
    let c := setLine c index j { b with flag := FM }
    let bus := { bus with caches := bus.caches.set ci { c with lr_dir := -1 } }
    (bus, hit, success)
  | none =>
    let (bus, victim_i) := find_victim bus ci index
    let (bus, mem_b) := bus.snoop_exclusive addr ci
    let c := bus.caches.getD ci default
    let victim_b := lineAt c index victim_i
    let victim_b := { victim_b with data := mem_b, flag := FM, tag := (block_num : Int) }
    let (victim_b, success) :=
      if c.lr_dir == (block_num : Int) then
        ({ victim_b with data := victim_b.data.set offset val }, true)
      else (victim_b, false)
    let c := setLine c index victim_i victim_b
    let bus := { bus with caches := bus.caches.set ci { c with lr_dir := -1 } }
    (bus, false, success)

/-- `CacheMemAssoc.store_conditional` on the cache at position `ci`: returns
the updated bus, whether it was a hit, and whether the write succeeded. -/
def store_conditional (bus : Bus) (ci : Nat) (addr : Nat) (val : Int) :
    Bus × Bool × Bool :=
  let c := bus.caches.getD ci default
  let (block_num, offset, index, tag) := process_address c addr
  if c.lr_dir != (block_num : Int) then (bus, true, false)
  else
    match find c index tag with
    | some j =>
      let b := lineAt c index j
      if b.flag == FM then
        let (c, success) :=
          if c.lr_dir == (block_num : Int) then
            (setLine c index j { b with data := b.data.set offset val }, true)
          else (c, false)
        ({ bus with caches := bus.caches.set ci { c with lr_dir := -1 } }, true, success)
      else sc_busphase bus ci addr val block_num offset index tag true
    | none => sc_busphase bus ci addr val block_num offset index tag false

/-- The word stored at (word-aligned) address `a` of a main memory: the
block containing `a`, read at `a`'s word offset within the block. -/
def RamMemory.wordAt (m : RamMemory) (a : Nat) : Int :=
  (m.blocks.getD (m.blockIndex a) []).getD
    (((a - m.start_addr) % (m.ppb * m.bpp)) / m.bpp) 0

/-- Word number `w` (counting words from the first block) of a block list. -/
def getWord (blocks : List (List Int)) (ppb w : Nat) : Int :=
  (blocks.getD (w / ppb) []).getD (w % ppb) 0

/-- Overwrite word number `w` of a block list. -/
def setWord (blocks : List (List Int)) (ppb w : Nat) (d : Int) : List (List Int) :=
  blocks.set (w / ppb) ((blocks.getD (w / ppb) []).set (w % ppb) d)

/-- Flat (word-indexed) form of the copy loop of `RamMemory.load`. -/
def loadFlat (ppb : Nat) (blocks : List (List Int)) (w : Nat) :
    List Int → List (List Int)
  | [] => blocks
  | d :: ds => loadFlat ppb (setWord blocks ppb w d) (w + 1) ds

/-- Every block of the list has exactly `ppb` words. -/
def blocksWF (blocks : List (List Int)) (ppb : Nat) : Prop :=
  ∀ b ∈ blocks, b.length = ppb

/-- A two-block main memory used to exercise `RamMemory.load`. -/
def ramDemo : RamMemory :=
  { start_addr := 0, bpp := 4, ppb := 4, blocks := [[1, 1, 1, 1], [1, 1, 1, 1]] }

/-- A one-cache bus whose cache holds a (stale) reservation on block 1 while
all lines are Invalid: used to exercise `store_conditional` at an address of
block 0. -/
def staleReserveBus : Bus :=
  { memory := { start_addr := 0, bpp := 4, ppb := 4, blocks := [[0, 0, 0, 0]] },
    caches := [{ assoc := 1, num_sets := 1, bpp := 4, ppb := 4,
                 sets := [{ fifo := 0,
                            lines := [{ tag := -1, flag := FI, data := [0, 0, 0, 0] }] }],
                 lr_dir := 1 }] }

/-- Like `staleReserveBus` but with the reservation on block 0, so a
store-conditional at address 0 passes the entry check. -/
def matchedReserveBus : Bus :=
  { memory := { start_addr := 0, bpp := 4, ppb := 4, blocks := [[0, 0, 0, 0]] },
    caches := [{ assoc := 1, num_sets := 1, bpp := 4, ppb := 4,
                 sets := [{ fifo := 0,
                            lines := [{ tag := -1, flag := FI, data := [0, 0, 0, 0] }] }],
                 lr_dir := 0 }] }

/-- A one-cache bus with a 2-way set whose FIFO victim (way 0) is Modified:
used to exercise `find_victim`. -/
def fifoDemoBus : Bus :=
  { memory := { start_addr := 0, bpp := 4, ppb := 4, blocks := [[1, 1, 1, 1], [1, 1, 1, 1]] },
    caches := [{ assoc := 2, num_sets := 1, bpp := 4, ppb := 4,
                 sets := [{ fifo := 0,
                            lines := [{ tag := 0, flag := FM, data := [5, 6, 7, 8] },
                                      { tag := 1, flag := FC, data := [0, 0, 0, 0] }] }],
                 lr_dir := -1 }] }

/-! ### Coherence invariants (spec §8) -/

/-- No two distinct non-Invalid lines of the same set share a tag
(spec §8 invariant 1). -/
def nodupTags (c : CacheMemAssoc) : Prop :=
  ∀ si < c.sets.length,
    ∀ j1 < (c.sets.getD si default).lines.length,
      ∀ j2 < (c.sets.getD si default).lines.length,
        j1 ≠ j2 → (lineAt c si j1).flag ≠ FI → (lineAt c si j2).flag ≠ FI →
          (lineAt c si j1).tag ≠ (lineAt c si j2).tag

/-- Every non-Invalid line caches a nonnegative block number and sits in the
set that block number selects. -/
def placedTags (c : CacheMemAssoc) : Prop :=
  ∀ si < c.sets.length,
    ∀ j < (c.sets.getD si default).lines.length,
      (lineAt c si j).flag ≠ FI →
        0 ≤ (lineAt c si j).tag ∧ (lineAt c si j).tag.toNat % c.num_sets = si

/-- MSI (spec §8 invariant 2): a Modified line excludes any non-Invalid copy
of the same block in every other cache; in particular at most one cache holds
a block Modified and no other cache holds it Shared. -/
def msiOk (bus : Bus) : Prop :=
  ∀ i1 < bus.caches.length, ∀ i2 < bus.caches.length, i1 ≠ i2 →
    ∀ s1 < (bus.caches.getD i1 default).sets.length,
      ∀ j1 < ((bus.caches.getD i1 default).sets.getD s1 default).lines.length,
        ∀ s2 < (bus.caches.getD i2 default).sets.length,
          ∀ j2 < ((bus.caches.getD i2 default).sets.getD s2 default).lines.length,
            (lineAt (bus.caches.getD i1 default) s1 j1).flag = FM →
            (lineAt (bus.caches.getD i2 default) s2 j2).tag =
              (lineAt (bus.caches.getD i1 default) s1 j1).tag →
            (lineAt (bus.caches.getD i2 default) s2 j2).flag = FI

/-- Per-cache well-formedness: duplicate-free and placed tags, the declared
number of sets matching the set list, and bus-wide uniform block geometry. -/
def cacheWF (bus : Bus) : Prop :=
  ∀ i < bus.caches.length,
    nodupTags (bus.caches.getD i default) ∧ placedTags (bus.caches.getD i default) ∧
      (bus.caches.getD i default).num_sets = (bus.caches.getD i default).sets.length ∧
      (bus.caches.getD i default).ppb = bus.memory.ppb ∧
      (bus.caches.getD i default).bpp = bus.memory.bpp

/-- The inductive coherence invariant: per-cache well-formedness plus MSI. -/
def busInv (bus : Bus) : Prop := cacheWF bus ∧ msiOk bus

/-- The cache holds no non-Invalid line with tag `b` (at any position). -/
def noValidTag (c : CacheMemAssoc) (b : Nat) : Prop :=
  ∀ si j, (lineAt c si j).tag = (b : Int) → (lineAt c si j).flag = FI

/-- Some line of the cache is Modified with tag `b`. -/
def hasFMtag (c : CacheMemAssoc) (b : Nat) : Prop :=
  ∃ si j, (lineAt c si j).tag = (b : Int) ∧ (lineAt c si j).flag = FM

/-- One cache state weakens to another: same geometry and tags, and each flag
is unchanged, Invalidated, or downgraded from Modified to Shared. -/
def weakens (c c' : CacheMemAssoc) : Prop :=
  c'.num_sets = c.num_sets ∧ c'.ppb = c.ppb ∧ c'.bpp = c.bpp ∧
  c'.sets.length = c.sets.length ∧
  (∀ si, (c'.sets.getD si default).lines.length =
    (c.sets.getD si default).lines.length) ∧
  ∀ si j, (lineAt c' si j).tag = (lineAt c si j).tag ∧
    ((lineAt c' si j).flag = (lineAt c si j).flag ∨ (lineAt c' si j).flag = FI ∨
      ((lineAt c si j).flag = FM ∧ (lineAt c' si j).flag = FC))

/-- Pointwise weakening of every cache on the bus; the memory geometry and
the number of caches are unchanged. -/
def busWeakens (bus bus' : Bus) : Prop :=
  bus'.caches.length = bus.caches.length ∧
    bus'.memory.ppb = bus.memory.ppb ∧ bus'.memory.bpp = bus.memory.bpp ∧
    ∀ i, weakens (bus.caches.getD i default) (bus'.caches.getD i default)

/-! ## Processor core (`riscv/core.py`)

The pipeline stages are embedded as pure state transformers over the core's
registers / PC / LR plus the instruction and data buses; hit/miss statistics,
logging and the PCB bookkeeping of `run`/`_context_switch` are elided.  The
tuple returns of the stages are read through projections.  Uncaught Python
exceptions surface as `Except.error`. -/

def OP_ADDI : Nat := 19

def OP_ADD : Nat := 71

def OP_SUB : Nat := 83

def OP_MUL : Nat := 72

def OP_DIV : Nat := 56

def OP_LW : Nat := 5

def OP_SW : Nat := 37

def OP_LR : Nat := 51

def OP_SC : Nat := 52

def OP_BEQ : Nat := 99

def OP_BNE : Nat := 100

def OP_JAL : Nat := 111

def OP_JALR : Nat := 103

def OP_FIN : Nat := 0xFF

/-- Modelled from the spec: `core.py` imports an `OpCodes` enumeration from
`riscv/isa.py`, but the provided `isa.py` defines only the plain integer
constants above (with `OP_BNE` spelled `OP_NEQ`), so the enumeration itself
is missing from the sources.  Per the spec (§6) `NOOP = 0` is the implicit
no-op opcode, and unknown opcodes are not an error: `_decode` logs a warning
and treats them as NOOP, so the `OpCodes(op_code)` conversion is modelled as
the identity on the raw opcode number. -/
def OP_NOOP : Nat := 0

def OP_ARITH_REG : List Nat := [OP_ADD, OP_SUB, OP_MUL, OP_DIV]

def OP_LOAD_STORE : List Nat := [OP_LW, OP_SW]

def OP_LR_SC : List Nat := [OP_LR, OP_SC]

def OP_BRANCH : List Nat := [OP_BEQ, OP_BNE]

def OP_ROUTINE : List Nat := [OP_JAL, OP_JALR]

/-- All opcodes `_decode` recognizes. -/
def definedOpcodes : List Nat :=
  OP_ARITH_REG ++ OP_BRANCH ++ OP_ROUTINE ++ OP_LOAD_STORE ++ OP_LR_SC ++
    [OP_ADDI, OP_FIN, OP_NOOP]

/-- A CPU register; `dataRaw` is the private `__data` field. -/
structure Register where
  address : Nat
  zero_reg : Bool
  dataRaw : Int
deriving Repr, DecidableEq, Inhabited

/-- The `Register.data` property getter: the zero register always reads 0. -/
def Register.data (r : Register) : Int := if r.zero_reg then 0 else r.dataRaw

/-- The `Register.data` property setter: raises on the zero register. -/
def Register.setData (r : Register) (v : Int) : Except String Register :=
  if r.zero_reg then Except.error "Trying to set Zero Register value"
  else Except.ok { r with dataRaw := v }

/-- The mutable core state: register file, PC, the LR reservation register
(`__lr`, initialized to −1), and the running PCB's remaining quantum. -/
structure CoreState where
  registers : List Register
  pc : Int
  lr : Int
  quantum : Int
deriving Repr, DecidableEq, Inhabited

/-- `self.registers[i].data` (indices produced by simulator programs are in
range; out-of-range reads default). -/
def regData (regs : List Register) (i : Nat) : Int := (regs.getD i default).data

/-- `Core._fetch`: read the instruction at PC through the instruction cache
and advance PC by 4. -/
def core_fetch (cs : CoreState) (ibus : Bus) (ci : Nat) : CoreState × Bus × Nat :=
  let r := cache_load ibus ci cs.pc.toNat
  ({ cs with pc := cs.pc + 4 }, r.1, r.2.1.toNat)

/-- `Core._decode`: per-opcode-class extraction of
`(op_code, rd, rf1, rf2, inm)`; the final branch covers FIN/NOOP (`pass`)
and unknown opcodes (warning, treated as NOOP). -/
def core_decode (instruction : Nat) :
    Nat × Option Nat × Option Nat × Option Int × Option Int :=
  let d := decode instruction
  let op_code := d.1
  let arg1 := d.2.1
  let arg2 := d.2.2.1
  let arg3 := d.2.2.2
  if op_code ∈ OP_ARITH_REG then
    (op_code, some arg1, some arg2, some arg3, none)
  else if op_code ∈ OP_BRANCH ∨ op_code = OP_SW then
    (op_code, none, some arg1, some (arg2 : Int), some arg3)
  else if op_code ∈ OP_ROUTINE ∨ op_code = OP_ADDI ∨ op_code = OP_LW then
    (op_code, some arg1, some arg2, none, some arg3)
  else if op_code = OP_LR then
    (op_code, some arg1, some arg2, none, none)
  else if op_code = OP_SC then
    (op_code, some arg2, some arg1, some (arg2 : Int), none)
  else
    (op_code, none, none, none, none)

/-- `Core._execute`: ALU result, effective memory address, branch decision
and jump target; OP_LR also writes the LR register.  Python's `//` is floor
division (`Int.fdiv`); a DIV whose divisor register holds 0 raises an
unhandled `ZeroDivisionError`, modelled as `none`. -/
def core_execute (cs : CoreState) (op_code : Nat) (rf1 : Option Nat)
    (rf2 : Option Int) (inm : Option Int) :
    Option (CoreState × Option Int × Option Int × Option Bool × Option Int) :=
  if op_code ∈ OP_ARITH_REG then
    let x2 := regData cs.registers (rf1.getD 0)
    let x3 := regData cs.registers (rf2.getD 0).toNat
    if op_code = OP_ADD then some (cs, some (x2 + x3), none, none, none)
    else if op_code = OP_SUB then some (cs, some (x2 - x3), none, none, none)
    else if op_code = OP_MUL then some (cs, some (x2 * x3), none, none, none)
    else if op_code = OP_DIV then
      if x3 = 0 then none
      else some (cs, some (Int.fdiv x2 x3), none, none, none)
    else some (cs, none, none, none, none)
  else if op_code = OP_ADDI then
    let x2 := regData cs.registers (rf1.getD 0)
    some (cs, some (x2 + inm.getD 0), none, none, none)
  else if op_code ∈ OP_LOAD_STORE then
    let x1 := regData cs.registers (rf1.getD 0)
    some (cs, none, some (x1 + inm.getD 0), none, none)
  else if op_code = OP_LR then
    let x1 := regData cs.registers (rf1.getD 0)
    some ({ cs with lr := x1 }, none, some x1, none, none)
  else if op_code = OP_SC then
    let x1 := regData cs.registers (rf1.getD 0)
    some (cs, none, some x1, none, none)
  else if op_code ∈ OP_BRANCH then
    let x1 := regData cs.registers (rf1.getD 0)
    let x2 := regData cs.registers (rf2.getD 0).toNat
    let jmp := if op_code = OP_BEQ then decide (x1 = x2) else decide (x1 ≠ x2)
    some (cs, none, none, some jmp, some (cs.pc + 4 * inm.getD 0))
  else if op_code ∈ OP_ROUTINE then
    let jmp_target :=
      if op_code = OP_JAL then cs.pc + inm.getD 0
      else regData cs.registers (rf1.getD 0) + inm.getD 0
    some (cs, some cs.pc, none, some true, some jmp_target)
  else
    some (cs, none, none, none, none)

/-- `Core._memory`: data-cache access for LW/SW/LR/SC; for SC the core first
checks its own LR register, and the result overwrites the ALU value with the
loaded word, the stored word on SC success, or 0 on SC failure. -/
def core_memory (cs : CoreState) (dbus : Bus) (ci : Nat) (op_code : Nat)
    (memd : Option Int) (rf2 : Option Int) (xd : Option Int) :
    CoreState × Bus × Option Int :=
  if op_code = OP_LW then
    let r := cache_load dbus ci (memd.getD 0).toNat
    (cs, r.1, some r.2.1)
  else if op_code = OP_SW then
    let word := regData cs.registers (rf2.getD 0).toNat
    let r := cache_store dbus ci (memd.getD 0).toNat word
    (cs, r.1, xd)
  else if op_code = OP_LR then
    let r := cache_load_reserved dbus ci (memd.getD 0).toNat
    (cs, r.1, some r.2.1)
  else if op_code = OP_SC then
    let word := regData cs.registers (rf2.getD 0).toNat
    let success := cs.lr == memd.getD 0
    if success then
      let r := store_conditional dbus ci (memd.getD 0).toNat word
      (cs, r.1, if r.2.2 then some word else some 0)
    else
      (cs, dbus, some 0)
  else
    (cs, dbus, xd)

/-- `Core._write_back`: a taken branch or jump updates PC; the listed opcode
classes write the destination register through the `Register.data` setter
(which raises on r0). -/
def core_write_back (cs : CoreState) (op_code : Nat) (rd : Option Nat)
    (xd : Option Int) (jmp : Option Bool) (jmp_target : Option Int) :
    Except String CoreState :=
  let cs :=
    if op_code ∈ OP_ROUTINE ∨ op_code ∈ OP_BRANCH then
      if jmp.getD false then { cs with pc := jmp_target.getD 0 } else cs
    else cs
  if op_code ∈ OP_ARITH_REG ∨ op_code ∈ OP_ROUTINE ∨ op_code ∈ OP_LR_SC ∨
      op_code = OP_ADDI ∨ op_code = OP_LW then
    match (cs.registers.getD (rd.getD 0) default).setData (xd.getD 0) with
    | Except.error e => Except.error e
    | Except.ok r =>
      Except.ok { cs with registers := cs.registers.set (rd.getD 0) r }
  else Except.ok cs

/-- `Core.step`: the five pipeline stages in order, then the quantum update
(FIN zeroes the quantum, anything else decrements it). -/
def step (cs : CoreState) (ibus dbus : Bus) (ci : Nat) :
    Except String (CoreState × Bus × Bus) :=
  let f := core_fetch cs ibus ci
  let d := core_decode f.2.2
  let op_code := d.1
  match core_execute f.1 op_code d.2.2.1 d.2.2.2.1 d.2.2.2.2 with
  | none => Except.error "integer division or modulo by zero"
  | some e =>
    let m := core_memory e.1 dbus ci op_code e.2.2.1 d.2.2.2.1 e.2.1
    match core_write_back m.1 op_code d.2.1 m.2.2 e.2.2.2.1 e.2.2.2.2 with
    | Except.error err => Except.error err
    | Except.ok cs' =>
      let cs' :=
        if op_code = OP_FIN then { cs' with quantum := 0 }
        else { cs' with quantum := cs'.quantum - 1 }
      Except.ok (cs', f.2.1, m.2.1)

/-- No line of any cache of the bus is in the Modified state (bounded form,
for concrete evaluation). -/
def noModifiedLines (bus : Bus) : Prop :=
  ∀ i < bus.caches.length, ∀ si < (bus.caches.getD i default).sets.length,
    ∀ j < ((bus.caches.getD i default).sets.getD si default).lines.length,
      (lineAt (bus.caches.getD i default) si j).flag ≠ FM

/-- A core whose register r3 holds 0, about to execute `DIV r1, r2, r3`. -/
def divDemoCore : CoreState :=
  { registers := [{ address := 0, zero_reg := true, dataRaw := 0 },
                  { address := 1, zero_reg := false, dataRaw := 1 },
                  { address := 2, zero_reg := false, dataRaw := 9 },
                  { address := 3, zero_reg := false, dataRaw := 0 }],
    pc := 0, lr := -1, quantum := 25 }

/-- A one-cache instruction bus whose cache holds, at address 0, the encoded
instruction `DIV r1, r2, r3` (opcode 56). -/
def divDemoBus : Bus :=
  { memory := { start_addr := 0, bpp := 4, ppb := 4,
                blocks := [[(encode 56 1 2 3 : Int), 0, 0, 0]] },
    caches := [{ assoc := 1, num_sets := 1, bpp := 4, ppb := 4,
                 sets := [{ fifo := 0,
                            lines := [{ tag := 0, flag := FC,
                                        data := [(encode 56 1 2 3 : Int), 0, 0, 0] }] }],
                 lr_dir := -1 }] }

/-- A one-cache instruction bus whose cache holds, at address 0, the raw
instruction word 1 (opcode 1, which no opcode class defines). -/
def unknownDemoBus : Bus :=
  { memory := { start_addr := 0, bpp := 4, ppb := 4, blocks := [[1, 0, 0, 0]] },
    caches := [{ assoc := 1, num_sets := 1, bpp := 4, ppb := 4,
                 sets := [{ fifo := 0,
                            lines := [{ tag := 0, flag := FC, data := [1, 0, 0, 0] }] }],
                 lr_dir := -1 }] }

/-! ## Bitwise helper lemmas -/

theorem and_shifted_mask (a k n : Nat) (h : a < 2 ^ k) :
    (a <<< n) &&& ((2 ^ k - 1) <<< n) = a <<< n := by
  apply Nat.eq_of_testBit_eq
  intro i
  simp only [Nat.testBit_and, Nat.testBit_shiftLeft, Nat.testBit_two_pow_sub_one]
  by_cases hni : n ≤ i
  · by_cases hik : i - n < k
    · simp [hni, hik]
    · have hb : a.testBit (i - n) = false :=
        Nat.testBit_lt_two_pow
          (lt_of_lt_of_le h (Nat.pow_le_pow_right (by norm_num) (le_of_not_lt hik)))
      simp [hb]
  · simp [hni]

theorem or_shifted (x b n : Nat) (hx : x < 2 ^ n) :
    x ||| (b <<< n) = x + b * 2 ^ n := by
  rw [Nat.shiftLeft_eq, Nat.lor_comm, mul_comm b (2 ^ n), ← Nat.mul_add_lt_is_or hx]
  omega

theorem and_mask_shiftRight (x m n : Nat) :
    (x &&& (m <<< n)) >>> n = (x >>> n) &&& m := by
  apply Nat.eq_of_testBit_eq
  intro i
  simp only [Nat.testBit_and, Nat.testBit_shiftLeft, Nat.testBit_shiftRight]
  have : n ≤ n + i := Nat.le_add_right n i
  simp [this, Nat.add_sub_cancel_left]

theorem and_two_pow_arith (u n : Nat) : u &&& 2 ^ n = (u / 2 ^ n % 2) * 2 ^ n := by
  rw [Nat.and_two_pow, Nat.toNat_testBit]

/-- Arithmetic characterization of `encode`: the four fields occupy disjoint
bit ranges, so the bitwise ORs are an exact sum. -/
theorem encode_eq_arith (op a1 a2 : Nat) (a3 : Int)
    (hop : op < 256) (h1 : a1 < 32) (h2 : a2 < 32) :
    encode op a1 a2 a3 =
      op + a1 * 256 + a2 * 8192 + (a3 % 16384).toNat * 262144 := by
  have hmask0 : op &&& M_OPCD = op := by
    have : M_OPCD = 2 ^ 8 - 1 := by decide
    rw [this, Nat.and_pow_two_sub_one_of_lt_two_pow (by omega)]
  have hmask1 : (a1 <<< BS_ARG1) &&& M_ARG1 = a1 <<< 8 := by
    have : M_ARG1 = (2 ^ 5 - 1) <<< 8 := by decide
    rw [this, show BS_ARG1 = 8 from rfl, and_shifted_mask a1 5 8 (by omega)]
  have hmask2 : (a2 <<< BS_ARG2) &&& M_ARG2 = a2 <<< 13 := by
    have : M_ARG2 = (2 ^ 5 - 1) <<< 13 := by decide
    rw [this, show BS_ARG2 = 13 from rfl, and_shifted_mask a2 5 13 (by omega)]
  have humod : (0 : Int) ≤ a3 % 16384 ∧ a3 % 16384 < 16384 := by omega
  have hu : (a3 % 16384).toNat < 16384 := by omega
  have hmask3 : pyAnd32 (pyShl a3 BS_ARG3) M_ARG3 = (a3 % 16384).toNat <<< 18 := by
    have hemod : pyShl a3 BS_ARG3 % (2 ^ 32 : Int) = ((a3 % 16384).toNat : Int) * 262144 := by
      show a3 * 2 ^ (18 : Nat) % (2 ^ 32 : Int) = ((a3 % 16384).toNat : Int) * 262144
      have h18 : (2 : Int) ^ (18 : Nat) = 262144 := by norm_num
      rw [h18]
      omega
    unfold pyAnd32
    rw [hemod]
    have htn : (((a3 % 16384).toNat : Int) * 262144).toNat = (a3 % 16384).toNat * 262144 := by
      omega
    rw [htn]
    have : M_ARG3 = (2 ^ 14 - 1) <<< 18 := by decide
    rw [this, show (a3 % 16384).toNat * 262144 = (a3 % 16384).toNat <<< 18 by
      rw [Nat.shiftLeft_eq]]
    exact and_shifted_mask _ 14 18 (by omega)
  unfold encode
  rw [hmask0, hmask1, hmask2, hmask3]
  rw [or_shifted op a1 8 (by omega)]
  rw [or_shifted _ a2 13 (by omega)]
  rw [or_shifted _ _ 18 (by omega)]
  norm_num

/-- C1: decoding an encoded instruction recovers the opcode and the three
argument fields exactly, the 14-bit `a3` field by two's-complement
sign-extension. -/
theorem c1_decode_encode_roundtrip (op a1 a2 : Nat) (a3 : Int)
    (hop : op < 256) (h1 : a1 < 32) (h2 : a2 < 32)
    (h3l : -(2 ^ 13) ≤ a3) (h3r : a3 < 2 ^ 13) :
    decode (encode op a1 a2 a3) = (op, a1, a2, a3) := by
  have hE := encode_eq_arith op a1 a2 a3 hop h1 h2
  set u : Nat := (a3 % 16384).toNat with hu_def
  have hu : u < 16384 := by omega
  have hEval : encode op a1 a2 a3 = op + a1 * 256 + a2 * 8192 + u * 262144 := hE
  set E : Nat := encode op a1 a2 a3 with hE_def
  have hop' : dec_opcode E = op := by
    unfold dec_opcode
    have : M_OPCD = 2 ^ 8 - 1 := by decide
    rw [this, Nat.and_pow_two_sub_one_eq_mod, show BS_OPCD = 0 from rfl,
      Nat.shiftRight_zero]
    omega
  have ha1 : dec_arg1 E = a1 := by
    unfold dec_arg1
    have : M_ARG1 = 31 <<< 8 := by decide
    rw [this, show BS_ARG1 = 8 from rfl, and_mask_shiftRight,
      Nat.shiftRight_eq_div_pow, show (31 : Nat) = 2 ^ 5 - 1 by norm_num,
      Nat.and_pow_two_sub_one_eq_mod]
    norm_num
    omega
  have ha2 : dec_arg2 E = a2 := by
    unfold dec_arg2
    have : M_ARG2 = 31 <<< 13 := by decide
    rw [this, show BS_ARG2 = 13 from rfl, and_mask_shiftRight,
      Nat.shiftRight_eq_div_pow, show (31 : Nat) = 2 ^ 5 - 1 by norm_num,
      Nat.and_pow_two_sub_one_eq_mod]
    norm_num
    omega
  have ha3 : dec_arg3 E = a3 := by
    unfold dec_arg3
    have hm : M_ARG3 = 16383 <<< 18 := by decide
    have hraw : (E &&& M_ARG3) >>> BS_ARG3 = u := by
      rw [hm, show BS_ARG3 = 18 from rfl, and_mask_shiftRight,
        Nat.shiftRight_eq_div_pow, show (16383 : Nat) = 2 ^ 14 - 1 by norm_num,
        Nat.and_pow_two_sub_one_eq_mod]
      norm_num
      omega
    simp only [hraw]
    have hbits : INS_LENGTH - BS_ARG3 = 14 := by decide
    rw [hbits]
    rw [show (2 : Nat) ^ (14 - 1) = 2 ^ 13 by norm_num, and_two_pow_arith]
    by_cases hneg : a3 < 0
    · have hval : u = (a3 + 16384).toNat := by omega
      have hge : 8192 ≤ u := by omega
      have hcond : u / 2 ^ 13 % 2 * 2 ^ 13 ≠ 0 := by
        have : u / 2 ^ 13 = 1 := by norm_num; omega
        rw [this]
        norm_num
      rw [if_pos hcond]
      omega
    · have hval : u = a3.toNat := by omega
      have hlt : u < 8192 := by omega
      have hcond : ¬ (u / 2 ^ 13 % 2 * 2 ^ 13 ≠ 0) := by
        have : u / 2 ^ 13 = 0 := by norm_num; omega
        rw [this]
        norm_num
      rw [if_neg hcond]
      omega
  show (dec_opcode E, dec_arg1 E, dec_arg2 E, dec_arg3 E) = (op, a1, a2, a3)
  rw [hop', ha1, ha2, ha3]

/-- Witness for C1 at a concrete in-range input with a negative `a3`. -/
theorem c1_witness :
    (71 < 256 ∧ 3 < 32 ∧ 4 < 32 ∧ -(2 ^ 13) ≤ (-5 : Int) ∧ (-5 : Int) < 2 ^ 13) ∧
      decode (encode 71 3 4 (-5)) = (71, 3, 4, -5) :=
  ⟨by decide,
    c1_decode_encode_roundtrip 71 3 4 (-5) (by decide) (by decide) (by decide)
      (by decide) (by decide)⟩

/-! ## List access helpers -/

theorem getD_set_self {α} (l : List α) (i : Nat) (a d : α) (h : i < l.length) :
    (l.set i a).getD i d = a := by
  simp [List.getD_eq_getElem?_getD, List.getElem?_set_self h]

theorem getD_set_ne {α} (l : List α) (i j : Nat) (a d : α) (h : i ≠ j) :
    (l.set i a).getD j d = l.getD j d := by
  simp [List.getD_eq_getElem?_getD, List.getElem?_set_ne h]

/-! ## Structural lemmas about the bus operations -/

theorem snoop_shared_go_length (mem : RamMemory) (caches : List CacheMemAssoc)
    (addr : Nat) (idxs : List Nat) :
    (snoop_shared_go mem caches addr idxs).2.1.length = caches.length := by
  induction idxs generalizing mem caches with
  | nil => rfl
  | cons i rest ih =>
    unfold snoop_shared_go
    dsimp only
    split
    · split
      · simp
      · simp
    · rw [ih]
      simp

theorem snoop_exclusive_go_length (mem : RamMemory) (caches : List CacheMemAssoc)
    (addr : Nat) (idxs : List Nat) :
    (snoop_exclusive_go mem caches addr idxs).2.1.length = caches.length := by
  induction idxs generalizing mem caches with
  | nil => rfl
  | cons i rest ih =>
    unfold snoop_exclusive_go
    dsimp only
    split
    · split
      · simp
      · rw [ih]
        simp
    · rw [ih]
      simp

theorem snoop_shared_length (bus : Bus) (addr requester : Nat) :
    (bus.snoop_shared addr requester).1.caches.length = bus.caches.length := by
  unfold Bus.snoop_shared
  dsimp only
  split
  · next heq =>
    have := snoop_shared_go_length bus.memory bus.caches addr
      ((List.range bus.caches.length).filter (· ≠ requester))
    rw [heq] at this
    exact this
  · next heq =>
    have := snoop_shared_go_length bus.memory bus.caches addr
      ((List.range bus.caches.length).filter (· ≠ requester))
    rw [heq] at this
    exact this

theorem snoop_exclusive_length (bus : Bus) (addr requester : Nat) :
    (bus.snoop_exclusive addr requester).1.caches.length = bus.caches.length := by
  unfold Bus.snoop_exclusive
  dsimp only
  split
  · next heq =>
    have := snoop_exclusive_go_length bus.memory bus.caches addr
      ((List.range bus.caches.length).filter (· ≠ requester))
    rw [heq] at this
    exact this
  · next heq =>
    have := snoop_exclusive_go_length bus.memory bus.caches addr
      ((List.range bus.caches.length).filter (· ≠ requester))
    rw [heq] at this
    exact this

theorem find_victim_length (bus : Bus) (ci index : Nat) :
    (find_victim bus ci index).1.caches.length = bus.caches.length := by
  unfold find_victim
  dsimp only
  split
  · simp [Bus.write_back]
  · simp

/-- A cache position outside `idxs` is untouched by the snoop-shared loop. -/
theorem snoop_shared_go_getD_notmem (mem : RamMemory) (caches : List CacheMemAssoc)
    (addr : Nat) (idxs : List Nat) (ci : Nat) (h : ci ∉ idxs) :
    (snoop_shared_go mem caches addr idxs).2.1.getD ci default = caches.getD ci default := by
  induction idxs generalizing mem caches with
  | nil => rfl
  | cons i rest ih =>
    have hne : i ≠ ci := fun he => h (he ▸ List.mem_cons_self i rest)
    have hrest : ci ∉ rest := fun hm => h (List.mem_cons_of_mem i hm)
    unfold snoop_shared_go
    dsimp only
    split
    · split
      · exact getD_set_ne _ _ _ _ _ hne
      · exact getD_set_ne _ _ _ _ _ hne
    · rw [ih _ _ hrest, getD_set_ne _ _ _ _ _ hne]

/-- A cache position outside `idxs` is untouched by the snoop-exclusive loop. -/
theorem snoop_exclusive_go_getD_notmem (mem : RamMemory) (caches : List CacheMemAssoc)
    (addr : Nat) (idxs : List Nat) (ci : Nat) (h : ci ∉ idxs) :
    (snoop_exclusive_go mem caches addr idxs).2.1.getD ci default = caches.getD ci default := by
  induction idxs generalizing mem caches with
  | nil => rfl
  | cons i rest ih =>
    have hne : i ≠ ci := fun he => h (he ▸ List.mem_cons_self i rest)
    have hrest : ci ∉ rest := fun hm => h (List.mem_cons_of_mem i hm)
    unfold snoop_exclusive_go
    dsimp only
    split
    · split
      · exact getD_set_ne _ _ _ _ _ hne
      · rw [ih _ _ hrest, getD_set_ne _ _ _ _ _ hne]
    · rw [ih _ _ hrest, getD_set_ne _ _ _ _ _ hne]

/-- The requesting cache is untouched by `Bus.snoop_shared`. -/
theorem snoop_shared_requester (bus : Bus) (addr requester : Nat) :
    (bus.snoop_shared addr requester).1.caches.getD requester default =
      bus.caches.getD requester default := by
  have hnm : requester ∉ (List.range bus.caches.length).filter (· ≠ requester) := by
    intro hm
    have := List.of_mem_filter hm
    simp at this
  unfold Bus.snoop_shared
  dsimp only
  split
  · next heq =>
    have := snoop_shared_go_getD_notmem bus.memory bus.caches addr
      ((List.range bus.caches.length).filter (· ≠ requester)) requester hnm
    rw [heq] at this
    exact this
  · next heq =>
    have := snoop_shared_go_getD_notmem bus.memory bus.caches addr
      ((List.range bus.caches.length).filter (· ≠ requester)) requester hnm
    rw [heq] at this
    exact this

/-- The requesting cache is untouched by `Bus.snoop_exclusive`. -/
theorem snoop_exclusive_requester (bus : Bus) (addr requester : Nat) :
    (bus.snoop_exclusive addr requester).1.caches.getD requester default =
      bus.caches.getD requester default := by
  have hnm : requester ∉ (List.range bus.caches.length).filter (· ≠ requester) := by
    intro hm
    have := List.of_mem_filter hm
    simp at this
  unfold Bus.snoop_exclusive
  dsimp only
  split
  · next heq =>
    have := snoop_exclusive_go_getD_notmem bus.memory bus.caches addr
      ((List.range bus.caches.length).filter (· ≠ requester)) requester hnm
    rw [heq] at this
    exact this
  · next heq =>
    have := snoop_exclusive_go_getD_notmem bus.memory bus.caches addr
      ((List.range bus.caches.length).filter (· ≠ requester)) requester hnm
    rw [heq] at this
    exact this

/-! ## C3: store-conditional with no matching reservation -/

/-- C3: if at entry the cache's reserved block differs from the block of
`addr`, `store_conditional` reports `success = false` and performs no write at
all: the whole bus state (every line's data, tag, flag, and the backing
memory) is returned exactly as it was. -/
theorem c3_sc_early_fail_no_write (bus : Bus) (ci addr : Nat) (val : Int)
    (h : (bus.caches.getD ci default).lr_dir ≠
      ((process_address (bus.caches.getD ci default) addr).1 : Int)) :
    store_conditional bus ci addr val = (bus, true, false) := by
  unfold store_conditional
  simp only [process_address] at h ⊢
  rw [if_pos (by simpa [bne_iff_ne] using h)]

/-- Witness for C3: on `staleReserveBus` (reservation on block 1) a
store-conditional to address 0 (block 0) fails and changes nothing. -/
theorem c3_witness :
    ((staleReserveBus.caches.getD 0 default).lr_dir ≠
        ((process_address (staleReserveBus.caches.getD 0 default) 0).1 : Int)) ∧
      store_conditional staleReserveBus 0 0 7 = (staleReserveBus, true, false) :=
  ⟨by decide, c3_sc_early_fail_no_write staleReserveBus 0 0 7 (by decide)⟩

/-! ## C2: store-conditional and the reservation -/

/-- C2 counterexample: on `staleReserveBus` (reservation on block 1, no valid
line), `store_conditional` at address 0 (block 0) fails early and returns with
the reserved block still 1, not −1: the reservation is not consumed on the
early-failure path. -/
theorem c2_counterexample :
    (store_conditional staleReserveBus 0 0 7).2.2 = false ∧
      ((store_conditional staleReserveBus 0 0 7).1.caches.getD 0 default).lr_dir ≠ -1 := by
  decide

/-- C2 amended: whenever the entry reservation check passes (the reserved
block equals the block of `addr` when the call starts), the reservation is
consumed: the cache's reserved block is −1 when the call returns, whether the
reported success is true or false.  (When the entry check fails the call
returns `success = false` and leaves the reservation untouched, see the
counterexample.) -/
theorem c2_sc_consumes_reservation (bus : Bus) (ci addr : Nat) (val : Int)
    (hci : ci < bus.caches.length)
    (h : (bus.caches.getD ci default).lr_dir =
      ((process_address (bus.caches.getD ci default) addr).1 : Int)) :
    ((store_conditional bus ci addr val).1.caches.getD ci default).lr_dir = -1 := by
  unfold store_conditional
  simp only [process_address] at h ⊢
  rw [if_neg (by simp only [bne_iff_ne, ne_eq, not_not]; exact h)]
  split
  · next j hfind =>
    split
    · next hfm =>
      split
      · dsimp only
        rw [getD_set_self _ _ _ _ hci]
      · dsimp only
        rw [getD_set_self _ _ _ _ hci]
    · unfold sc_busphase
      dsimp only
      split
      · next j' hfind' =>
        split
        · dsimp only
          rw [getD_set_self _ _ _ _ hci]
        · dsimp only
          rw [getD_set_self]
          have hlen := snoop_exclusive_length bus addr ci
          omega
      · next hfind' =>
        dsimp only
        rw [getD_set_self]
        have h1 := find_victim_length bus ci ((process_address (bus.caches.getD ci default) addr).2.2.1)
        have h2 := snoop_exclusive_length (find_victim bus ci ((process_address (bus.caches.getD ci default) addr).2.2.1)).1 addr ci
        simp only [process_address] at h1 h2
        omega
  · unfold sc_busphase
    dsimp only
    split
    · next j' hfind' =>
      split
      · dsimp only
        rw [getD_set_self _ _ _ _ hci]
      · dsimp only
        rw [getD_set_self]
        have hlen := snoop_exclusive_length bus addr ci
        omega
    · next hfind' =>
      dsimp only
      rw [getD_set_self]
      have h1 := find_victim_length bus ci ((process_address (bus.caches.getD ci default) addr).2.2.1)
      have h2 := snoop_exclusive_length (find_victim bus ci ((process_address (bus.caches.getD ci default) addr).2.2.1)).1 addr ci
      simp only [process_address] at h1 h2
      omega

/-- Witness for C2 (amended): on `matchedReserveBus` the entry check passes
and the reservation is consumed. -/
theorem c2_witness :
    ((0 : Nat) < matchedReserveBus.caches.length ∧
      (matchedReserveBus.caches.getD 0 default).lr_dir =
        ((process_address (matchedReserveBus.caches.getD 0 default) 0).1 : Int)) ∧
      ((store_conditional matchedReserveBus 0 0 7).1.caches.getD 0 default).lr_dir = -1 :=
  ⟨by decide, c2_sc_consumes_reservation matchedReserveBus 0 0 7 (by decide) (by decide)⟩

/-! ## C8: FIFO victim selection and write-back -/

/-- C8: `find_victim` evicts exactly the line indexed by the set's FIFO
pointer, advances the pointer by one modulo the associativity, invalidates
the victim line (its data and tag are untouched until the caller refills it),
and, when the victim was Modified, first writes the victim's data back to the
main-memory block identified by the victim's tag; otherwise memory is
untouched. -/
theorem c8_fifo_victim (bus : Bus) (ci index : Nat)
    (hci : ci < bus.caches.length)
    (hidx : index < (bus.caches.getD ci default).sets.length)
    (hfifo : ((bus.caches.getD ci default).sets.getD index default).fifo <
      ((bus.caches.getD ci default).sets.getD index default).lines.length)
    (hblk : bus.memory.blockIndex
        ((((bus.caches.getD ci default).sets.getD index default).lines.getD
            ((bus.caches.getD ci default).sets.getD index default).fifo default).tag *
          ((bus.caches.getD ci default).ppb * (bus.caches.getD ci default).bpp : Int)).toNat <
      bus.memory.blocks.length) :
    (find_victim bus ci index).2 =
        ((bus.caches.getD ci default).sets.getD index default).fifo ∧
      (((find_victim bus ci index).1.caches.getD ci default).sets.getD index default).fifo =
        (((bus.caches.getD ci default).sets.getD index default).fifo + 1) %
          (bus.caches.getD ci default).assoc ∧
      lineAt ((find_victim bus ci index).1.caches.getD ci default) index
          ((bus.caches.getD ci default).sets.getD index default).fifo =
        { ((bus.caches.getD ci default).sets.getD index default).lines.getD
            ((bus.caches.getD ci default).sets.getD index default).fifo default with
          flag := FI } ∧
      ((((bus.caches.getD ci default).sets.getD index default).lines.getD
            ((bus.caches.getD ci default).sets.getD index default).fifo default).flag = FM →
        (find_victim bus ci index).1.memory.get
            ((((bus.caches.getD ci default).sets.getD index default).lines.getD
                ((bus.caches.getD ci default).sets.getD index default).fifo default).tag *
              ((bus.caches.getD ci default).ppb * (bus.caches.getD ci default).bpp : Int)).toNat =
          (((bus.caches.getD ci default).sets.getD index default).lines.getD
              ((bus.caches.getD ci default).sets.getD index default).fifo default).data) ∧
      ((((bus.caches.getD ci default).sets.getD index default).lines.getD
            ((bus.caches.getD ci default).sets.getD index default).fifo default).flag ≠ FM →
        (find_victim bus ci index).1.memory = bus.memory) := by
  unfold find_victim
  dsimp only
  split
  · next hfm =>
    refine ⟨rfl, ?_, ?_, ?_, ?_⟩
    · rw [getD_set_self]
      · rw [getD_set_self _ _ _ _ hidx]
      · simpa [Bus.write_back] using hci
    · unfold lineAt
      rw [getD_set_self]
      · rw [getD_set_self _ _ _ _ hidx]
        dsimp only
        rw [getD_set_self _ _ _ _ hfifo]
      · simpa [Bus.write_back] using hci
    · intro _
      unfold Bus.write_back RamMemory.get RamMemory.set RamMemory.blockIndex
      dsimp only
      rw [getD_set_self]
      simpa [RamMemory.blockIndex] using hblk
    · intro hne
      exact absurd (by simpa using hfm) hne
  · next hfm =>
    refine ⟨rfl, ?_, ?_, ?_, ?_⟩
    · rw [getD_set_self _ _ _ _ hci, getD_set_self _ _ _ _ hidx]
    · unfold lineAt
      rw [getD_set_self _ _ _ _ hci, getD_set_self _ _ _ _ hidx]
      dsimp only
      rw [getD_set_self _ _ _ _ hfifo]
    · intro hm
      exact absurd (beq_iff_eq.mpr hm) hfm
    · intro _
      rfl

/-- Witness for C8 on `fifoDemoBus`: the Modified FIFO victim (way 0) is
evicted, written back to memory block 0, and the pointer advances to 1. -/
theorem c8_witness :
    ((0 : Nat) < fifoDemoBus.caches.length ∧
      (0 : Nat) < (fifoDemoBus.caches.getD 0 default).sets.length ∧
      ((fifoDemoBus.caches.getD 0 default).sets.getD 0 default).fifo <
        ((fifoDemoBus.caches.getD 0 default).sets.getD 0 default).lines.length ∧
      fifoDemoBus.memory.blockIndex
          ((((fifoDemoBus.caches.getD 0 default).sets.getD 0 default).lines.getD
              ((fifoDemoBus.caches.getD 0 default).sets.getD 0 default).fifo default).tag *
            ((fifoDemoBus.caches.getD 0 default).ppb *
              (fifoDemoBus.caches.getD 0 default).bpp : Int)).toNat <
        fifoDemoBus.memory.blocks.length) ∧
      ((find_victim fifoDemoBus 0 0).2 =
          ((fifoDemoBus.caches.getD 0 default).sets.getD 0 default).fifo ∧
        (((find_victim fifoDemoBus 0 0).1.caches.getD 0 default).sets.getD 0 default).fifo =
          (((fifoDemoBus.caches.getD 0 default).sets.getD 0 default).fifo + 1) %
            (fifoDemoBus.caches.getD 0 default).assoc ∧
        lineAt ((find_victim fifoDemoBus 0 0).1.caches.getD 0 default) 0
            ((fifoDemoBus.caches.getD 0 default).sets.getD 0 default).fifo =
          { ((fifoDemoBus.caches.getD 0 default).sets.getD 0 default).lines.getD
              ((fifoDemoBus.caches.getD 0 default).sets.getD 0 default).fifo default with
            flag := FI } ∧
        ((((fifoDemoBus.caches.getD 0 default).sets.getD 0 default).lines.getD
              ((fifoDemoBus.caches.getD 0 default).sets.getD 0 default).fifo default).flag = FM →
          (find_victim fifoDemoBus 0 0).1.memory.get
              ((((fifoDemoBus.caches.getD 0 default).sets.getD 0 default).lines.getD
                  ((fifoDemoBus.caches.getD 0 default).sets.getD 0 default).fifo default).tag *
                ((fifoDemoBus.caches.getD 0 default).ppb *
                  (fifoDemoBus.caches.getD 0 default).bpp : Int)).toNat =
            (((fifoDemoBus.caches.getD 0 default).sets.getD 0 default).lines.getD
                ((fifoDemoBus.caches.getD 0 default).sets.getD 0 default).fifo default).data) ∧
        ((((fifoDemoBus.caches.getD 0 default).sets.getD 0 default).lines.getD
              ((fifoDemoBus.caches.getD 0 default).sets.getD 0 default).fifo default).flag ≠ FM →
          (find_victim fifoDemoBus 0 0).1.memory = fifoDemoBus.memory)) :=
  ⟨by decide, c8_fifo_victim fifoDemoBus 0 0 (by decide) (by decide) (by decide) (by decide)⟩

/-! ## C9: bulk load into main memory -/

theorem getD_eq_getElem {α} (l : List α) (n : Nat) (d : α) (h : n < l.length) :
    l.getD n d = l[n] := by
  simp [List.getD_eq_getElem?_getD, List.getElem?_eq_getElem h]

/-- The block/offset copy loop equals the flat word-indexed loop. -/
theorem loadAux_eq_loadFlat (ppb : Nat) (hppb : 0 < ppb) (data : List Int) :
    ∀ (blocks : List (List Int)) (bn off : Nat), off < ppb →
      loadAux ppb blocks bn off data = loadFlat ppb blocks (bn * ppb + off) data := by
  induction data with
  | nil => intro blocks bn off _; rfl
  | cons d ds ih =>
    intro blocks bn off hoff
    unfold loadAux loadFlat
    have hset : blocks.set bn ((blocks.getD bn []).set off d) =
        setWord blocks ppb (bn * ppb + off) d := by
      unfold setWord
      have hdiv : (bn * ppb + off) / ppb = bn := by
        rw [Nat.mul_comm bn ppb, Nat.add_comm, Nat.add_mul_div_left _ _ hppb,
          Nat.div_eq_of_lt hoff]
        omega
      have hmod : (bn * ppb + off) % ppb = off := by
        rw [Nat.mul_comm bn ppb, Nat.add_comm, Nat.add_mul_mod_self_left,
          Nat.mod_eq_of_lt hoff]
      rw [hdiv, hmod]
    rw [hset]
    split
    · next hge =>
      have heq : off + 1 = ppb := by omega
      rw [ih _ (bn + 1) 0 hppb]
      congr 1
      rw [Nat.succ_mul]
      omega
    · next hlt =>
      rw [ih _ bn (off + 1) (by omega)]
      congr 1 <;> omega

/-- Writing word `w` does not change any other word. -/
theorem getWord_setWord_ne (blocks : List (List Int)) (ppb w a : Nat) (d : Int)
    (hppb : 0 < ppb) (hne : a ≠ w) :
    getWord (setWord blocks ppb w d) ppb a = getWord blocks ppb a := by
  unfold getWord setWord
  by_cases hb : a / ppb = w / ppb
  · have hmo : a % ppb ≠ w % ppb := by
      intro he
      apply hne
      have ha := Nat.div_add_mod a ppb
      have hw := Nat.div_add_mod w ppb
      rw [hb] at ha
      omega
    by_cases hlt : w / ppb < blocks.length
    · rw [hb, getD_set_self _ _ _ _ hlt, getD_set_ne _ _ _ _ _ (fun h => hmo h.symm)]
    · rw [List.set_eq_of_length_le (by omega)]
  · rw [getD_set_ne _ _ _ _ _ (fun h => hb (h.symm))]

/-- Writing word `w` makes word `w` hold the written value (when the word is
backed by a real block of the right length). -/
theorem getWord_setWord_self (blocks : List (List Int)) (ppb w : Nat) (d : Int)
    (hppb : 0 < ppb) (hw : w / ppb < blocks.length)
    (hlen : (blocks.getD (w / ppb) []).length = ppb) :
    getWord (setWord blocks ppb w d) ppb w = d := by
  unfold getWord setWord
  rw [getD_set_self _ _ _ _ hw, getD_set_self]
  rw [hlen]
  exact Nat.mod_lt _ hppb

theorem setWord_length (blocks : List (List Int)) (ppb w : Nat) (d : Int) :
    (setWord blocks ppb w d).length = blocks.length := by
  unfold setWord
  simp

theorem setWord_wf (blocks : List (List Int)) (ppb w : Nat) (d : Int)
    (hwf : blocksWF blocks ppb) : blocksWF (setWord blocks ppb w d) ppb := by
  by_cases hlt : w / ppb < blocks.length
  · intro b hb
    rcases List.mem_or_eq_of_mem_set hb with h | h
    · exact hwf b h
    · subst h
      rw [List.length_set]
      exact hwf _ (by
        rw [getD_eq_getElem _ _ _ hlt]
        exact List.getElem_mem hlt)
  · unfold setWord
    rw [List.set_eq_of_length_le (by omega)]
    exact hwf

theorem loadFlat_length (ppb : Nat) (data : List Int) :
    ∀ (blocks : List (List Int)) (w : Nat),
      (loadFlat ppb blocks w data).length = blocks.length := by
  induction data with
  | nil => intro blocks w; rfl
  | cons d ds ih =>
    intro blocks w
    unfold loadFlat
    rw [ih, setWord_length]

theorem loadFlat_wf (ppb : Nat) (data : List Int) :
    ∀ (blocks : List (List Int)) (w : Nat), blocksWF blocks ppb →
      blocksWF (loadFlat ppb blocks w data) ppb := by
  induction data with
  | nil => intro blocks w h; exact h
  | cons d ds ih =>
    intro blocks w h
    exact ih _ _ (setWord_wf _ _ _ _ h)

/-- Words outside the written span are unchanged by the flat load loop. -/
theorem getWord_loadFlat_outside (ppb : Nat) (hppb : 0 < ppb) (data : List Int) :
    ∀ (blocks : List (List Int)) (w a : Nat), a < w ∨ w + data.length ≤ a →
      getWord (loadFlat ppb blocks w data) ppb a = getWord blocks ppb a := by
  induction data with
  | nil => intro blocks w a _; rfl
  | cons d ds ih =>
    intro blocks w a hout
    unfold loadFlat
    rw [ih _ (w + 1) a (by simp only [List.length_cons] at hout; omega)]
    exact getWord_setWord_ne _ _ _ _ _ hppb
      (by simp only [List.length_cons] at hout; omega)

/-- Word `w + i` of the flat load loop holds `data[i]`. -/
theorem getWord_loadFlat_inside (ppb : Nat) (hppb : 0 < ppb) (data : List Int) :
    ∀ (blocks : List (List Int)) (w i : Nat), i < data.length →
      blocksWF blocks ppb → w + data.length ≤ ppb * blocks.length →
      getWord (loadFlat ppb blocks w data) ppb (w + i) = data.getD i 0 := by
  induction data with
  | nil => intro blocks w i hi _ _; simp at hi
  | cons d ds ih =>
    intro blocks w i hi hwf hbound
    unfold loadFlat
    match i with
    | 0 =>
      show getWord (loadFlat ppb (setWord blocks ppb w d) (w + 1) ds) ppb w =
        (d :: ds).getD 0 0
      rw [getWord_loadFlat_outside ppb hppb ds _ (w + 1) w (by omega)]
      have hwlt : w / ppb < blocks.length := by
        rw [Nat.div_lt_iff_lt_mul hppb, Nat.mul_comm]
        simp only [List.length_cons] at hbound
        omega
      rw [getWord_setWord_self _ _ _ _ hppb hwlt
        (hwf _ (by
          rw [getD_eq_getElem _ _ _ hwlt]
          exact List.getElem_mem hwlt))]
      rfl
    | i' + 1 =>
      have := ih (setWord blocks ppb w d) (w + 1) i'
        (by simp only [List.length_cons] at hi; omega)
        (setWord_wf _ _ _ _ hwf)
        (by rw [setWord_length]; simp only [List.length_cons] at hbound; omega)
      rw [show w + (i' + 1) = (w + 1) + i' by omega, this]
      rfl

theorem addr_words (x ppb bpp : Nat) (hbpp : 0 < bpp) :
    x / (ppb * bpp) * ppb + x % (ppb * bpp) / bpp = x / bpp := by
  conv_rhs => rw [← Nat.div_add_mod x (ppb * bpp)]
  rw [show ppb * bpp * (x / (ppb * bpp)) = bpp * (ppb * (x / (ppb * bpp))) by ring]
  rw [Nat.mul_add_div hbpp]
  ring

/-- `RamMemory.load` in terms of the flat word loop. -/
theorem load_eq_loadFlat (m : RamMemory) (addr : Nat) (data : List Int)
    (hbpp : 0 < m.bpp) (hppb : 0 < m.ppb) :
    (m.load addr data).blocks =
      loadFlat m.ppb m.blocks ((addr - m.start_addr) / m.bpp) data := by
  unfold RamMemory.load
  dsimp only
  rw [loadAux_eq_loadFlat m.ppb hppb data _ _ _
    (by
      rw [Nat.div_lt_iff_lt_mul hbpp]
      exact Nat.mod_lt _ (by positivity))]
  rw [addr_words _ _ _ hbpp]

/-- `RamMemory.wordAt` in terms of the flat word view. -/
theorem wordAt_eq_getWord (m : RamMemory) (a : Nat) :
    m.wordAt a = getWord m.blocks m.ppb ((a - m.start_addr) / m.bpp) := by
  have h1 : (a - m.start_addr) / m.bpp / m.ppb = (a - m.start_addr) / (m.ppb * m.bpp) := by
    rw [Nat.div_div_eq_div_mul, Nat.mul_comm]
  have h2 : (a - m.start_addr) / m.bpp % m.ppb =
      (a - m.start_addr) % (m.ppb * m.bpp) / m.bpp := by
    rw [Nat.div_mod_eq_mod_mul_div, Nat.mul_comm]
  unfold RamMemory.wordAt RamMemory.blockIndex getWord
  rw [h1, h2]

/-- C9: after `RamMemory.load addr W`, the word at address `addr + 4·i`
equals `W[i]` for every `i < |W|` (spilling across successive blocks), and
every word outside the written span is unchanged. -/
theorem c9_bulk_load (m : RamMemory) (addr : Nat) (W : List Int)
    (hbpp : m.bpp = 4) (hppb : 0 < m.ppb)
    (hwf : blocksWF m.blocks m.ppb)
    (hstart : m.start_addr ≤ addr)
    (halign : (addr - m.start_addr) % 4 = 0)
    (hfit : (addr - m.start_addr) / 4 + W.length ≤ m.ppb * m.blocks.length) :
    (∀ i, i < W.length → (m.load addr W).wordAt (addr + 4 * i) = W.getD i 0) ∧
      (∀ a, m.start_addr ≤ a → (a - m.start_addr) % 4 = 0 →
        (a < addr ∨ addr + 4 * W.length ≤ a) →
        (m.load addr W).wordAt a = m.wordAt a) := by
  have hbpp' : (0 : Nat) < m.bpp := by omega
  have hload : (m.load addr W).blocks =
      loadFlat m.ppb m.blocks ((addr - m.start_addr) / m.bpp) W :=
    load_eq_loadFlat m addr W hbpp' hppb
  have hfields : (m.load addr W).ppb = m.ppb ∧ (m.load addr W).bpp = m.bpp ∧
      (m.load addr W).start_addr = m.start_addr := ⟨rfl, rfl, rfl⟩
  constructor
  · intro i hi
    rw [wordAt_eq_getWord]
    rw [hfields.1, hfields.2.1, hfields.2.2, hload, hbpp]
    have hidx : (addr + 4 * i - m.start_addr) / 4 = (addr - m.start_addr) / 4 + i := by
      omega
    rw [hidx]
    exact getWord_loadFlat_inside m.ppb hppb W m.blocks _ i hi hwf (by omega)
  · intro a ha haal hout
    rw [wordAt_eq_getWord, wordAt_eq_getWord]
    rw [hfields.1, hfields.2.1, hfields.2.2, hload, hbpp]
    exact getWord_loadFlat_outside m.ppb hppb W m.blocks _ _ (by omega)

/-- Witness for C9: loading 4 words at address 4 of `ramDemo` spills into
block 1; word 2 of the data lands at address 12 and address 0 is unchanged. -/
theorem c9_witness :
    (ramDemo.bpp = 4 ∧ 0 < ramDemo.ppb ∧ blocksWF ramDemo.blocks ramDemo.ppb ∧
      ramDemo.start_addr ≤ 4 ∧ (4 - ramDemo.start_addr) % 4 = 0 ∧
      (4 - ramDemo.start_addr) / 4 + [9, 8, 7, 6].length ≤
        ramDemo.ppb * ramDemo.blocks.length) ∧
      (ramDemo.load 4 [9, 8, 7, 6]).wordAt (4 + 4 * 2) = [9, 8, 7, 6].getD 2 0 ∧
      (ramDemo.load 4 [9, 8, 7, 6]).wordAt 0 = ramDemo.wordAt 0 :=
  ⟨by unfold blocksWF; decide,
    (c9_bulk_load ramDemo 4 [9, 8, 7, 6] (by decide) (by decide)
        (by unfold blocksWF; decide) (by decide) (by decide) (by decide)).1 2
      (by decide),
    (c9_bulk_load ramDemo 4 [9, 8, 7, 6] (by decide) (by decide)
        (by unfold blocksWF; decide) (by decide) (by decide) (by decide)).2 0
      (by decide) (by decide) (by decide)⟩

/-! ## C6: writes to register r0 -/

/-- C6 counterexample: in the write-back stage, writing value 5 to
destination register r0 raises `Exception('Trying to set Zero Register
value')` instead of being silently ignored. -/
theorem c6_counterexample :
    core_write_back
        { registers := [{ address := 0, zero_reg := true, dataRaw := 0 }],
          pc := 0, lr := -1, quantum := 25 }
        OP_ADD (some 0) (some 5) none none =
      Except.error "Trying to set Zero Register value" := by
  rfl

/-- C6 amended: the zero register always reads 0, but writing it is not a
silent no-op: the `Register.data` setter raises
`Exception('Trying to set Zero Register value')`, which `Core._write_back`
does not catch. -/
theorem c6_zero_register_write_raises (r : Register) (v : Int)
    (h : r.zero_reg = true) :
    r.data = 0 ∧
      r.setData v = Except.error "Trying to set Zero Register value" := by
  unfold Register.data Register.setData
  rw [h]
  exact ⟨rfl, rfl⟩

/-- Witness for C6 (amended) on a concrete zero register. -/
theorem c6_witness :
    ({ address := 0, zero_reg := true, dataRaw := 7 } : Register).zero_reg = true ∧
      (({ address := 0, zero_reg := true, dataRaw := 7 } : Register).data = 0 ∧
        ({ address := 0, zero_reg := true, dataRaw := 7 } : Register).setData 5 =
          Except.error "Trying to set Zero Register value") :=
  ⟨rfl, c6_zero_register_write_raises { address := 0, zero_reg := true, dataRaw := 7 } 5 rfl⟩

/-! ## C10: DIV by zero -/

/-- C10: when the fetched instruction decodes to DIV and the second source
register reads 0, the execute stage hits Python's unguarded `//`
(`ZeroDivisionError`): `step` aborts with the error instead of producing a
next state. -/
theorem c10_div_by_zero_aborts (cs : CoreState) (ibus dbus : Bus) (ci : Nat)
    (hop : (core_decode (core_fetch cs ibus ci).2.2).1 = OP_DIV)
    (hzero : regData cs.registers
        (((core_decode (core_fetch cs ibus ci).2.2).2.2.2.1).getD 0).toNat = 0) :
    step cs ibus dbus ci = Except.error "integer division or modulo by zero" := by
  have hregs : (core_fetch cs ibus ci).1.registers = cs.registers := rfl
  have hex : core_execute (core_fetch cs ibus ci).1
      (core_decode (core_fetch cs ibus ci).2.2).1
      (core_decode (core_fetch cs ibus ci).2.2).2.2.1
      (core_decode (core_fetch cs ibus ci).2.2).2.2.2.1
      (core_decode (core_fetch cs ibus ci).2.2).2.2.2.2 = none := by
    rw [hop]
    unfold core_execute
    dsimp only
    rw [if_pos (show OP_DIV ∈ OP_ARITH_REG by decide)]
    rw [if_neg (show ¬(OP_DIV = OP_ADD) by decide),
      if_neg (show ¬(OP_DIV = OP_SUB) by decide),
      if_neg (show ¬(OP_DIV = OP_MUL) by decide),
      if_pos (show OP_DIV = OP_DIV from rfl)]
    rw [hregs, if_pos hzero]
  unfold step
  dsimp only
  rw [hex]

/-- Witness for C10: on `divDemoCore`/`divDemoBus` the fetched instruction is
`DIV r1, r2, r3` with r3 = 0, and `step` aborts with the division error. -/
theorem c10_witness :
    ((core_decode (core_fetch divDemoCore divDemoBus 0).2.2).1 = OP_DIV ∧
      regData divDemoCore.registers
        (((core_decode (core_fetch divDemoCore divDemoBus 0).2.2).2.2.2.1).getD 0).toNat = 0) ∧
      step divDemoCore divDemoBus staleReserveBus 0 =
        Except.error "integer division or modulo by zero" :=
  ⟨by decide,
    c10_div_by_zero_aborts divDemoCore divDemoBus staleReserveBus 0 (by decide) (by decide)⟩

/-! ## C7: unknown opcodes behave as NOOP -/

theorem snoop_find_false_fst (c : CacheMemAssoc) (addr : Nat) :
    (snoop_find c addr false).1 = c := rfl

/-- `lineAt` after replacing one whole set. -/
theorem lineAt_sets_set (c : CacheMemAssoc) (index : Nat) (s' : CacheSet)
    (si j : Nat) :
    lineAt { c with sets := c.sets.set index s' } si j =
      if si = index ∧ index < c.sets.length then s'.lines.getD j default
      else lineAt c si j := by
  unfold lineAt
  dsimp only
  by_cases he : si = index
  · subst he
    by_cases hl : si < c.sets.length
    · rw [getD_set_self _ _ _ _ hl, if_pos ⟨rfl, hl⟩]
    · rw [List.set_eq_of_length_le (by omega), if_neg (by tauto)]
  · rw [getD_set_ne _ _ _ _ _ (fun h => he h.symm), if_neg (by tauto)]

/-- The no-Modified-lines property, in unbounded form. -/
theorem noModifiedLines_all (bus : Bus) (h : noModifiedLines bus) :
    ∀ i si j, (lineAt (bus.caches.getD i default) si j).flag ≠ FM := by
  intro i si j
  by_cases hi : i < bus.caches.length
  · by_cases hsi : si < (bus.caches.getD i default).sets.length
    · by_cases hj : j < ((bus.caches.getD i default).sets.getD si default).lines.length
      · exact h i hi si hsi j hj
      · have : lineAt (bus.caches.getD i default) si j = default := by
          unfold lineAt
          rw [List.getD_eq_getElem?_getD
            ((bus.caches.getD i default).sets.getD si default).lines j default,
            List.getElem?_eq_none (by omega)]
          rfl
        rw [this]
        decide
    · have hset : (bus.caches.getD i default).sets.getD si default = default := by
        rw [List.getD_eq_getElem?_getD, List.getElem?_eq_none (by omega)]
        rfl
      unfold lineAt
      rw [hset]
      show (([] : List CacheBlock).getD j default).flag ≠ FM
      rw [List.getD_eq_getElem?_getD, List.getElem?_eq_none (Nat.zero_le j)]
      decide
  · have hc : bus.caches.getD i default = default := by
      rw [List.getD_eq_getElem?_getD, List.getElem?_eq_none (by omega)]
      rfl
    rw [hc]
    show ((([] : List CacheSet).getD si default).lines.getD j default).flag ≠ FM
    rw [show ([] : List CacheSet).getD si default = default by
      rw [List.getD_eq_getElem?_getD, List.getElem?_eq_none (Nat.zero_le si)]
      rfl]
    show (([] : List CacheBlock).getD j default).flag ≠ FM
    rw [List.getD_eq_getElem?_getD, List.getElem?_eq_none (Nat.zero_le j)]
    decide

/-- Replacing one cache by one with no Modified lines preserves the
no-Modified-lines property of a cache list. -/
theorem hflagsAll_set (caches : List CacheMemAssoc) (i : Nat) (c' : CacheMemAssoc)
    (h : ∀ i' si j, (lineAt (caches.getD i' default) si j).flag ≠ FM)
    (hc' : ∀ si j, (lineAt c' si j).flag ≠ FM) :
    ∀ i' si j, (lineAt ((caches.set i c').getD i' default) si j).flag ≠ FM := by
  intro i' si j
  by_cases he : i = i'
  · subst he
    by_cases hl : i < caches.length
    · rw [getD_set_self _ _ _ _ hl]
      exact hc' si j
    · rw [List.set_eq_of_length_le (by omega)]
      exact h i si j
  · rw [getD_set_ne _ _ _ _ _ he]
    exact h i' si j

/-- With no Modified line anywhere, the snoop-shared loop never writes
memory. -/
theorem snoop_shared_go_mem (mem : RamMemory) (caches : List CacheMemAssoc)
    (addr : Nat) (idxs : List Nat)
    (h : ∀ i si j, (lineAt (caches.getD i default) si j).flag ≠ FM) :
    (snoop_shared_go mem caches addr idxs).1 = mem := by
  induction idxs generalizing caches with
  | nil => rfl
  | cons i rest ih =>
    unfold snoop_shared_go
    dsimp only
    split
    · next j hj =>
      split
      · next hfm =>
        rw [snoop_find_false_fst] at hfm
        exact absurd (beq_iff_eq.mp hfm) (h i _ j)
      · rfl
    · next hnone =>
      rw [snoop_find_false_fst]
      exact ih _ (fun i' si j => by
        by_cases he : i = i'
        · subst he
          by_cases hl : i < caches.length
          · rw [getD_set_self _ _ _ _ hl]
            exact h i si j
          · rw [List.set_eq_of_length_le (by omega)]
            exact h i si j
        · rw [getD_set_ne _ _ _ _ _ he]
          exact h i' si j)

/-- With no Modified line anywhere, `Bus.snoop_shared` leaves memory
untouched. -/
theorem snoop_shared_mem (bus : Bus) (addr requester : Nat)
    (h : ∀ i si j, (lineAt (bus.caches.getD i default) si j).flag ≠ FM) :
    (bus.snoop_shared addr requester).1.memory = bus.memory := by
  unfold Bus.snoop_shared
  dsimp only
  split
  · next heq =>
    have := snoop_shared_go_mem bus.memory bus.caches addr
      ((List.range bus.caches.length).filter (· ≠ requester)) h
    rw [heq] at this
    exact this
  · next heq =>
    have := snoop_shared_go_mem bus.memory bus.caches addr
      ((List.range bus.caches.length).filter (· ≠ requester)) h
    rw [heq] at this
    exact this

/-- With no Modified line anywhere, `find_victim` does not write back. -/
theorem find_victim_mem (bus : Bus) (ci index : Nat)
    (h : ∀ i si j, (lineAt (bus.caches.getD i default) si j).flag ≠ FM) :
    (find_victim bus ci index).1.memory = bus.memory := by
  unfold find_victim
  dsimp only
  split
  · next hfm =>
    exact absurd (beq_iff_eq.mp hfm) (h ci index _)
  · rfl

/-- `find_victim` preserves the no-Modified-lines property (it only
invalidates). -/
theorem find_victim_hflags (bus : Bus) (ci index : Nat)
    (h : ∀ i si j, (lineAt (bus.caches.getD i default) si j).flag ≠ FM) :
    ∀ i si j,
      (lineAt ((find_victim bus ci index).1.caches.getD i default) si j).flag ≠ FM := by
  have hc' : ∀ si j,
      (lineAt
        { bus.caches.getD ci default with
          sets := (bus.caches.getD ci default).sets.set index
            { (bus.caches.getD ci default).sets.getD index default with
              fifo := (((bus.caches.getD ci default).sets.getD index default).fifo + 1) %
                (bus.caches.getD ci default).assoc,
              lines := ((bus.caches.getD ci default).sets.getD index default).lines.set
                (((bus.caches.getD ci default).sets.getD index default).fifo)
                { ((bus.caches.getD ci default).sets.getD index default).lines.getD
                    (((bus.caches.getD ci default).sets.getD index default).fifo) default with
                  flag := FI } } } si j).flag ≠ FM := by
    intro si j
    rw [lineAt_sets_set]
    split
    · next hcond =>
      dsimp only
      by_cases hj : j = ((bus.caches.getD ci default).sets.getD index default).fifo ∧
          ((bus.caches.getD ci default).sets.getD index default).fifo <
            ((bus.caches.getD ci default).sets.getD index default).lines.length
      · rw [hj.1, getD_set_self _ _ _ _ hj.2]
        show FI ≠ FM
        decide
      · rcases hcond with ⟨hsi, _⟩
        subst hsi
        by_cases hfi : ((bus.caches.getD ci default).sets.getD si default).fifo <
            ((bus.caches.getD ci default).sets.getD si default).lines.length
        · have hne : ((bus.caches.getD ci default).sets.getD si default).fifo ≠ j := by
            intro he
            exact hj ⟨he.symm, hfi⟩
          rw [getD_set_ne _ _ _ _ _ hne]
          exact h ci si j
        · rw [List.set_eq_of_length_le (by omega)]
          exact h ci si j
    · exact h ci si j
  unfold find_victim
  dsimp only
  intro i si j
  split
  · exact hflagsAll_set _ _ _ h hc' i si j
  · exact hflagsAll_set _ _ _ h hc' i si j

/-- With no Modified line anywhere on the instruction bus, a cache load
(e.g. a fetch) never changes main memory. -/
theorem cache_load_mem (bus : Bus) (ci addr : Nat)
    (h : noModifiedLines bus) :
    (cache_load bus ci addr).1.memory = bus.memory := by
  have hall := noModifiedLines_all bus h
  unfold cache_load
  dsimp only
  split
  · rfl
  · split
    · rfl
    · have h1 := find_victim_mem bus ci (process_address (bus.caches.getD ci default) addr).2.2.1 hall
      have h2 := find_victim_hflags bus ci (process_address (bus.caches.getD ci default) addr).2.2.1 hall
      have h3 := snoop_shared_mem
        (find_victim bus ci (process_address (bus.caches.getD ci default) addr).2.2.1).1 addr ci h2
      dsimp only
      rw [h3, h1]

/-- An opcode outside `definedOpcodes` is not equal to any single opcode and
belongs to none of the dispatch lists. -/
theorem unknown_opcode_facts (op : Nat) (h : op ∉ definedOpcodes) :
    op ∉ OP_ARITH_REG ∧ op ∉ OP_BRANCH ∧ op ∉ OP_ROUTINE ∧ op ∉ OP_LOAD_STORE ∧
      op ∉ OP_LR_SC ∧ op ≠ OP_ADDI ∧ op ≠ OP_LW ∧ op ≠ OP_SW ∧ op ≠ OP_LR ∧
      op ≠ OP_SC ∧ op ≠ OP_FIN ∧ op ≠ OP_NOOP := by
  simp only [definedOpcodes, OP_ARITH_REG, OP_BRANCH, OP_ROUTINE, OP_LOAD_STORE,
    OP_LR_SC, OP_ADD, OP_SUB, OP_MUL, OP_DIV, OP_BEQ, OP_BNE, OP_JAL, OP_JALR,
    OP_LW, OP_SW, OP_LR, OP_SC, OP_ADDI, OP_FIN, OP_NOOP, List.mem_append,
    List.mem_cons, List.not_mem_nil, or_false, not_or] at h ⊢
  omega

/-- `Core._decode` on an unknown opcode: warning, treated as NOOP, all
argument fields `None`. -/
theorem core_decode_unknown (ins : Nat) (h : dec_opcode ins ∉ definedOpcodes) :
    core_decode ins = (dec_opcode ins, none, none, none, none) := by
  obtain ⟨h1, h2, h3, h4, h5, h6, h7, h8, h9, h10, h11, h12⟩ :=
    unknown_opcode_facts _ h
  unfold core_decode decode
  dsimp only
  rw [if_neg h1, if_neg (by tauto), if_neg (by tauto), if_neg h9, if_neg h10]

/-- `Core._execute` on an unknown opcode: no ALU result, no memory address,
no branch, and the core state (registers, PC, LR) untouched. -/
theorem core_execute_unknown (cs : CoreState) (op : Nat) (rf1 : Option Nat)
    (rf2 : Option Int) (inm : Option Int) (h : op ∉ definedOpcodes) :
    core_execute cs op rf1 rf2 inm = some (cs, none, none, none, none) := by
  obtain ⟨h1, h2, h3, h4, h5, h6, h7, h8, h9, h10, h11, h12⟩ :=
    unknown_opcode_facts _ h
  unfold core_execute
  rw [if_neg h1, if_neg h6, if_neg h4, if_neg h9, if_neg h10, if_neg h2,
    if_neg h3]

/-- `Core._memory` on an unknown opcode: no cache access, data bus and ALU
value pass through. -/
theorem core_memory_unknown (cs : CoreState) (dbus : Bus) (ci : Nat) (op : Nat)
    (memd : Option Int) (rf2 : Option Int) (xd : Option Int)
    (h : op ∉ definedOpcodes) :
    core_memory cs dbus ci op memd rf2 xd = (cs, dbus, xd) := by
  obtain ⟨h1, h2, h3, h4, h5, h6, h7, h8, h9, h10, h11, h12⟩ :=
    unknown_opcode_facts _ h
  unfold core_memory
  rw [if_neg h7, if_neg h8, if_neg h9, if_neg h10]

/-- `Core._write_back` on an unknown opcode: no jump, no register write. -/
theorem core_write_back_unknown (cs : CoreState) (op : Nat) (rd : Option Nat)
    (xd : Option Int) (jmp : Option Bool) (jmp_target : Option Int)
    (h : op ∉ definedOpcodes) :
    core_write_back cs op rd xd jmp jmp_target = Except.ok cs := by
  obtain ⟨h1, h2, h3, h4, h5, h6, h7, h8, h9, h10, h11, h12⟩ :=
    unknown_opcode_facts _ h
  unfold core_write_back
  rw [if_neg (by tauto), if_neg (by tauto)]

/-- C7: a `step` that fetches an instruction with an unknown opcode completes
without error and behaves as NOOP: the registers, the LR register, the data
bus and main memory are unchanged, and PC advances only by the fetch's +4.
(The fetch may fill the instruction cache, but with no Modified line on the
instruction bus it cannot write instruction memory.) -/
theorem c7_unknown_opcode_noop (cs : CoreState) (ibus dbus : Bus) (ci : Nat)
    (hnm : noModifiedLines ibus)
    (hop : dec_opcode ((core_fetch cs ibus ci).2.2) ∉ definedOpcodes) :
    ∃ cs' ibus', step cs ibus dbus ci = Except.ok (cs', ibus', dbus) ∧
      cs'.registers = cs.registers ∧ cs'.pc = cs.pc + 4 ∧ cs'.lr = cs.lr ∧
      ibus'.memory = ibus.memory := by
  have hdec := core_decode_unknown _ hop
  refine ⟨{ (core_fetch cs ibus ci).1 with
      quantum := (core_fetch cs ibus ci).1.quantum - 1 }, (core_fetch cs ibus ci).2.1,
    ?_, rfl, rfl, rfl, ?_⟩
  · unfold step
    dsimp only
    rw [hdec]
    dsimp only
    rw [core_execute_unknown _ _ _ _ _ hop]
    dsimp only
    rw [core_memory_unknown _ _ _ _ _ _ _ hop]
    dsimp only
    rw [core_write_back_unknown _ _ _ _ _ _ hop]
    dsimp only
    rw [if_neg ((unknown_opcode_facts _ hop).2.2.2.2.2.2.2.2.2.2.1)]
  · show (cache_load ibus ci cs.pc.toNat).1.memory = ibus.memory
    exact cache_load_mem ibus ci cs.pc.toNat hnm

/-- Witness for C7: stepping `divDemoCore` against `unknownDemoBus` fetches
opcode 1 (unknown) and completes as a NOOP. -/
theorem c7_witness :
    (noModifiedLines unknownDemoBus ∧
      dec_opcode ((core_fetch divDemoCore unknownDemoBus 0).2.2) ∉ definedOpcodes) ∧
      (∃ cs' ibus', step divDemoCore unknownDemoBus staleReserveBus 0 =
          Except.ok (cs', ibus', staleReserveBus) ∧
        cs'.registers = divDemoCore.registers ∧ cs'.pc = divDemoCore.pc + 4 ∧
        cs'.lr = divDemoCore.lr ∧ ibus'.memory = unknownDemoBus.memory) :=
  ⟨⟨by unfold noModifiedLines; decide, by decide⟩,
    c7_unknown_opcode_noop divDemoCore unknownDemoBus staleReserveBus 0
      (by unfold noModifiedLines; decide) (by decide)⟩

/-! ## C4/C5: MSI coherence machinery -/

theorem weakens_refl (c : CacheMemAssoc) : weakens c c :=
  ⟨rfl, rfl, rfl, rfl, fun _ => rfl, fun _ _ => ⟨rfl, Or.inl rfl⟩⟩

theorem weakens_trans {a b c : CacheMemAssoc} (h1 : weakens a b) (h2 : weakens b c) :
    weakens a c := by
  obtain ⟨g1, g2, g3, g4, g5, hf1⟩ := h1
  obtain ⟨k1, k2, k3, k4, k5, hf2⟩ := h2
  refine ⟨k1.trans g1, k2.trans g2, k3.trans g3, k4.trans g4,
    fun si => (k5 si).trans (g5 si), fun si j => ?_⟩
  obtain ⟨t1, f1⟩ := hf1 si j
  obtain ⟨t2, f2⟩ := hf2 si j
  refine ⟨t2.trans t1, ?_⟩
  have hFI : FI = 0 := rfl
  have hFC : FC = 1 := rfl
  have hFM : FM = 2 := rfl
  rcases f1 with f1 | f1 | ⟨f1a, f1b⟩ <;> rcases f2 with f2 | f2 | ⟨f2a, f2b⟩ <;>
    omega

theorem nodupTags_of_weakens {c c' : CacheMemAssoc} (hw : weakens c c')
    (h : nodupTags c) : nodupTags c' := by
  obtain ⟨g1, g2, g3, g4, g5, hf⟩ := hw
  intro si hsi j1 hj1 j2 hj2 hne hv1 hv2
  rw [g4] at hsi
  rw [g5 si] at hj1 hj2
  obtain ⟨t1, f1⟩ := hf si j1
  obtain ⟨t2, f2⟩ := hf si j2
  rw [t1, t2]
  have hFI : FI = 0 := rfl
  have hFC : FC = 1 := rfl
  have hFM : FM = 2 := rfl
  exact h si hsi j1 hj1 j2 hj2 hne (by omega) (by omega)

theorem placedTags_of_weakens {c c' : CacheMemAssoc} (hw : weakens c c')
    (h : placedTags c) : placedTags c' := by
  obtain ⟨g1, g2, g3, g4, g5, hf⟩ := hw
  intro si hsi j hj hv
  rw [g4] at hsi
  rw [g5 si] at hj
  obtain ⟨t1, f1⟩ := hf si j
  rw [t1, g1]
  have hFI : FI = 0 := rfl
  have hFC : FC = 1 := rfl
  have hFM : FM = 2 := rfl
  exact h si hsi j hj (by omega)

theorem msiOk_of_busWeakens {bus bus' : Bus} (hw : busWeakens bus bus')
    (h : msiOk bus) : msiOk bus' := by
  obtain ⟨hlen, _, _, hwk⟩ := hw
  intro i1 hi1 i2 hi2 hne s1 hs1 j1 hj1 s2 hs2 j2 hj2 hfm htag
  rw [hlen] at hi1 hi2
  obtain ⟨g1a, g1b, g1c, g1d, g1e, hf1⟩ := hwk i1
  obtain ⟨g2a, g2b, g2c, g2d, g2e, hf2⟩ := hwk i2
  rw [g1d] at hs1
  rw [g1e s1] at hj1
  rw [g2d] at hs2
  rw [g2e s2] at hj2
  obtain ⟨t1, f1⟩ := hf1 s1 j1
  obtain ⟨t2, f2⟩ := hf2 s2 j2
  have hFI : FI = 0 := rfl
  have hFC : FC = 1 := rfl
  have hFM : FM = 2 := rfl
  have hfm0 : (lineAt (bus.caches.getD i1 default) s1 j1).flag = FM := by omega
  have htag0 : (lineAt (bus.caches.getD i2 default) s2 j2).tag =
      (lineAt (bus.caches.getD i1 default) s1 j1).tag := by
    rw [← t1, ← t2]
    exact htag
  have := h i1 hi1 i2 hi2 hne s1 hs1 j1 hj1 s2 hs2 j2 hj2 hfm0 htag0
  omega

theorem cacheWF_of_busWeakens {bus bus' : Bus} (hw : busWeakens bus bus')
    (h : cacheWF bus) : cacheWF bus' := by
  obtain ⟨hlen, hmp, hmb, hwk⟩ := hw
  intro i hi
  rw [hlen] at hi
  obtain ⟨hnd, hpl, hns, hpp, hbp⟩ := h i hi
  obtain ⟨g1, g2, g3, g4, g5, hf⟩ := hwk i
  exact ⟨nodupTags_of_weakens (hwk i) hnd, placedTags_of_weakens (hwk i) hpl,
    by rw [g1, g4, hns], by rw [g2, hmp, hpp], by rw [g3, hmb, hbp]⟩

theorem busInv_of_busWeakens {bus bus' : Bus} (hw : busWeakens bus bus')
    (h : busInv bus) : busInv bus' :=
  ⟨cacheWF_of_busWeakens hw h.1, msiOk_of_busWeakens hw h.2⟩

theorem noValidTag_of_weakens {c c' : CacheMemAssoc} {b : Nat}
    (hw : weakens c c') (h : noValidTag c b) : noValidTag c' b := by
  obtain ⟨g1, g2, g3, g4, g5, hf⟩ := hw
  intro si j htag
  obtain ⟨t1, f1⟩ := hf si j
  have := h si j (by rw [← t1]; exact htag)
  have hFI : FI = 0 := rfl
  have hFC : FC = 1 := rfl
  have hFM : FM = 2 := rfl
  omega

theorem hasFMtag_of_weakens {c c' : CacheMemAssoc} {b : Nat}
    (hw : weakens c c') (h : hasFMtag c' b) : hasFMtag c b := by
  obtain ⟨g1, g2, g3, g4, g5, hf⟩ := hw
  obtain ⟨si, j, htag, hflag⟩ := h
  obtain ⟨t1, f1⟩ := hf si j
  refine ⟨si, j, by rw [← t1]; exact htag, ?_⟩
  have hFI : FI = 0 := rfl
  have hFC : FC = 1 := rfl
  have hFM : FM = 2 := rfl
  omega

theorem snoop_find_state (c : CacheMemAssoc) (addr : Nat) (inv : Bool) :
    (snoop_find c addr inv).1.sets = c.sets ∧
      (snoop_find c addr inv).1.num_sets = c.num_sets ∧
      (snoop_find c addr inv).1.ppb = c.ppb ∧ (snoop_find c addr inv).1.bpp = c.bpp := by
  unfold snoop_find process_address
  dsimp only
  split <;> exact ⟨rfl, rfl, rfl, rfl⟩

theorem snoop_find_snd (c : CacheMemAssoc) (addr : Nat) (inv : Bool) :
    (snoop_find c addr inv).2 =
      find c (process_address c addr).2.2.1 (process_address c addr).2.2.2 := by
  unfold snoop_find process_address
  dsimp only
  split <;> rfl

theorem weakens_of_sets_eq {c c' : CacheMemAssoc} (h : c'.sets = c.sets)
    (h1 : c'.num_sets = c.num_sets) (h2 : c'.ppb = c.ppb) (h3 : c'.bpp = c.bpp) :
    weakens c c' := by
  refine ⟨h1, h2, h3, by rw [h], fun si => by rw [h], fun si j => ?_⟩
  unfold lineAt
  rw [h]
  exact ⟨rfl, Or.inl rfl⟩

theorem lineAt_oob (c : CacheMemAssoc) (si j : Nat)
    (h : c.sets.length ≤ si ∨ (c.sets.getD si default).lines.length ≤ j) :
    lineAt c si j = default := by
  unfold lineAt
  rcases h with h | h
  · have hs : c.sets.getD si default = default := by
      rw [List.getD_eq_getElem?_getD, List.getElem?_eq_none h]
      rfl
    rw [hs]
    show ([] : List CacheBlock).getD j default = default
    rw [List.getD_eq_getElem?_getD, List.getElem?_eq_none (Nat.zero_le j)]
    rfl
  · rw [List.getD_eq_getElem?_getD _ j default, List.getElem?_eq_none h]
    rfl

theorem lineAt_setLine (c : CacheMemAssoc) (si j : Nat) (b : CacheBlock)
    (si' j' : Nat) :
    lineAt (setLine c si j b) si' j' =
      if si' = si ∧ si < c.sets.length ∧ j' = j ∧
          j < (c.sets.getD si default).lines.length
      then b else lineAt c si' j' := by
  unfold setLine lineAt
  dsimp only
  by_cases hsi : si' = si
  · subst hsi
    by_cases hsl : si' < c.sets.length
    · rw [getD_set_self _ _ _ _ hsl]
      dsimp only
      by_cases hj : j' = j
      · subst hj
        by_cases hjl : j' < (c.sets.getD si' default).lines.length
        · rw [getD_set_self _ _ _ _ hjl, if_pos ⟨rfl, hsl, rfl, hjl⟩]
        · rw [List.set_eq_of_length_le (by omega), if_neg (by tauto)]
      · rw [getD_set_ne _ _ _ _ _ (fun h => hj h.symm), if_neg (by tauto)]
    · rw [List.set_eq_of_length_le (by omega), if_neg (by tauto)]
  · rw [getD_set_ne _ _ _ _ _ (fun h => hsi h.symm), if_neg (by tauto)]

theorem setLine_geom (c : CacheMemAssoc) (si j : Nat) (b : CacheBlock) :
    (setLine c si j b).num_sets = c.num_sets ∧ (setLine c si j b).ppb = c.ppb ∧
      (setLine c si j b).bpp = c.bpp ∧ (setLine c si j b).sets.length = c.sets.length ∧
      (setLine c si j b).lr_dir = c.lr_dir ∧
      ∀ si', ((setLine c si j b).sets.getD si' default).lines.length =
        (c.sets.getD si' default).lines.length := by
  refine ⟨rfl, rfl, rfl, by simp [setLine], rfl, fun si' => ?_⟩
  unfold setLine
  dsimp only
  by_cases hsi : si' = si
  · subst hsi
    by_cases hsl : si' < c.sets.length
    · rw [getD_set_self _ _ _ _ hsl]
      simp
    · rw [List.set_eq_of_length_le (by omega)]
  · rw [getD_set_ne _ _ _ _ _ (fun h => hsi h.symm)]

theorem weakens_setLine_flag (c : CacheMemAssoc) (si j : Nat) (f : Nat)
    (hf : f = FI ∨ ((lineAt c si j).flag = FM ∧ f = FC)) :
    weakens c (setLine c si j { lineAt c si j with flag := f }) := by
  obtain ⟨g1, g2, g3, g4, _, g6⟩ := setLine_geom c si j { lineAt c si j with flag := f }
  refine ⟨g1, g2, g3, g4, g6, fun si' j' => ?_⟩
  rw [lineAt_setLine]
  split
  · next hcond =>
    obtain ⟨h1, _, h3, _⟩ := hcond
    subst h1
    subst h3
    constructor
    · rfl
    · rcases hf with hf | ⟨hfm, hf⟩
      · exact Or.inr (Or.inl hf)
      · exact Or.inr (Or.inr ⟨hfm, hf⟩)
  · exact ⟨rfl, Or.inl rfl⟩

theorem find_oob (c : CacheMemAssoc) (index tag : Nat)
    (h : c.sets.length ≤ index) : find c index tag = none := by
  unfold find
  rw [List.getD_eq_getElem?_getD, List.getElem?_eq_none h]
  rfl

theorem find_some_spec (c : CacheMemAssoc) (index tag j : Nat)
    (h : find c index tag = some j) :
    j < (c.sets.getD index default).lines.length ∧
      (lineAt c index j).tag = (tag : Int) ∧ (lineAt c index j).flag ≠ FI := by
  unfold find at h
  rw [List.findIdx?_eq_some_iff_findIdx_eq] at h
  obtain ⟨hlt, hidx⟩ := h
  have hw : (c.sets.getD index default).lines.findIdx
      (fun b => b.tag == (tag : Int) && b.flag != FI) <
      (c.sets.getD index default).lines.length := by omega
  have hp := List.findIdx_getElem (w := hw)
  refine ⟨hlt, ?_⟩
  have hl : lineAt c index j =
      (c.sets.getD index default).lines.get
        ⟨(c.sets.getD index default).lines.findIdx
          (fun b => b.tag == (tag : Int) && b.flag != FI), hw⟩ := by
    unfold lineAt
    rw [getD_eq_getElem _ _ _ hlt, List.get_eq_getElem]
    congr 1
    simp only [Fin.val_mk]
    omega
  rw [hl, List.get_eq_getElem]
  simpa only [Bool.and_eq_true, beq_iff_eq, bne_iff_ne] using hp

theorem find_none_spec (c : CacheMemAssoc) (index tag : Nat)
    (h : find c index tag = none) :
    ∀ j < (c.sets.getD index default).lines.length,
      ¬((lineAt c index j).tag = (tag : Int) ∧ (lineAt c index j).flag ≠ FI) := by
  unfold find at h
  rw [List.findIdx?_eq_none_iff] at h
  intro j hj hcontra
  have hmem : (lineAt c index j) ∈ (c.sets.getD index default).lines := by
    unfold lineAt
    rw [getD_eq_getElem _ _ _ hj]
    exact List.getElem_mem hj
  have := h _ hmem
  simp only [Bool.and_eq_false_iff, beq_eq_false_iff_ne, ne_eq,
    bne_eq_false_iff_eq] at this
  rcases this with h1 | h1
  · exact h1 hcontra.1
  · exact hcontra.2 h1

theorem noValidTag_of_find_none (c : CacheMemAssoc) (b : Nat)
    (hpl : placedTags c) (hns : c.num_sets = c.sets.length)
    (hfind : find c (b % c.num_sets) b = none) : noValidTag c b := by
  intro si j htag
  by_cases hin : si < c.sets.length ∧ j < (c.sets.getD si default).lines.length
  · by_contra hv
    obtain ⟨hge, hplace⟩ := hpl si hin.1 j hin.2 hv
    have hsi : si = b % c.num_sets := by
      rw [← hplace, htag]
      simp
    subst hsi
    exact find_none_spec c _ b hfind j hin.2 ⟨htag, hv⟩
  · rw [lineAt_oob c si j (by omega)]
    rfl

theorem noValidTag_after_invalidate (c : CacheMemAssoc) (b j : Nat)
    (hnd : nodupTags c) (hpl : placedTags c) (hns : c.num_sets = c.sets.length)
    (hfind : find c (b % c.num_sets) b = some j) :
    noValidTag (setLine c (b % c.num_sets) j
      { lineAt c (b % c.num_sets) j with flag := FI }) b := by
  have hidx : b % c.num_sets < c.sets.length := by
    by_contra hge
    rw [find_oob c _ b (by omega)] at hfind
    exact Option.noConfusion hfind
  obtain ⟨hj, htagj, hvj⟩ := find_some_spec c _ b j hfind
  intro si j' htag
  rw [lineAt_setLine] at htag ⊢
  split
  · rfl
  · next hcond =>
    rw [if_neg hcond] at htag
    by_cases hin : si < c.sets.length ∧ j' < (c.sets.getD si default).lines.length
    · by_contra hv
      obtain ⟨hge, hplace⟩ := hpl si hin.1 j' hin.2 hv
      have hsi : si = b % c.num_sets := by
        rw [← hplace, htag]
        simp
      subst hsi
      have hjj : j' ≠ j := by
        intro he
        exact hcond ⟨rfl, hidx, he, hj⟩
      exact hnd _ hidx j' hin.2 j hj hjj hv hvj (by rw [htag, htagj])
    · rw [lineAt_oob c si j' (by omega)]
      rfl

/-- General line replacement that keeps the tag and weakens the flag. -/
theorem weakens_setLine (c : CacheMemAssoc) (si j : Nat) (b' : CacheBlock)
    (ht : b'.tag = (lineAt c si j).tag)
    (hf : b'.flag = (lineAt c si j).flag ∨ b'.flag = FI ∨
      ((lineAt c si j).flag = FM ∧ b'.flag = FC)) :
    weakens c (setLine c si j b') := by
  obtain ⟨g1, g2, g3, g4, _, g6⟩ := setLine_geom c si j b'
  refine ⟨g1, g2, g3, g4, g6, fun si' j' => ?_⟩
  rw [lineAt_setLine]
  split
  · next hcond =>
    obtain ⟨h1, _, h3, _⟩ := hcond
    subst h1
    subst h3
    exact ⟨ht, hf⟩
  · exact ⟨rfl, Or.inl rfl⟩

theorem weakens_set_step (caches : List CacheMemAssoc) (i0 i : Nat)
    (c2 : CacheMemAssoc) (h : weakens (caches.getD i0 default) c2) :
    weakens (caches.getD i default) ((caches.set i0 c2).getD i default) := by
  by_cases he : i0 = i
  · subst he
    by_cases hl : i0 < caches.length
    · rw [getD_set_self _ _ _ _ hl]
      exact h
    · rw [List.set_eq_of_length_le (by omega)]
      exact weakens_refl _
  · rw [getD_set_ne _ _ _ _ _ he]
    exact weakens_refl _

theorem snoop_find_weakens (c : CacheMemAssoc) (addr : Nat) (inv : Bool) :
    weakens c (snoop_find c addr inv).1 := by
  obtain ⟨h1, h2, h3, h4⟩ := snoop_find_state c addr inv
  exact weakens_of_sets_eq h1 h2 h3 h4

theorem snoop_exclusive_go_weakens (addr : Nat) (idxs : List Nat) :
    ∀ (mem : RamMemory) (caches : List CacheMemAssoc) (i : Nat),
      weakens (caches.getD i default)
        ((snoop_exclusive_go mem caches addr idxs).2.1.getD i default) := by
  induction idxs with
  | nil => intro mem caches i; exact weakens_refl _
  | cons i0 rest ih =>
    intro mem caches i
    unfold snoop_exclusive_go
    dsimp only
    split
    · next j hj =>
      split
      · next hfm =>
        apply weakens_set_step
        apply weakens_trans (snoop_find_weakens _ addr true)
        apply weakens_setLine
        · rfl
        · exact Or.inr (Or.inl rfl)
      · next hfm =>
        refine weakens_trans ?_ (ih _ _ i)
        apply weakens_set_step
        apply weakens_trans (snoop_find_weakens _ addr true)
        apply weakens_setLine
        · rfl
        · exact Or.inr (Or.inl rfl)
    · next hnone =>
      refine weakens_trans ?_ (ih _ _ i)
      exact weakens_set_step _ _ _ _ (snoop_find_weakens _ addr true)

theorem snoop_shared_go_weakens (addr : Nat) (idxs : List Nat) :
    ∀ (mem : RamMemory) (caches : List CacheMemAssoc) (i : Nat),
      weakens (caches.getD i default)
        ((snoop_shared_go mem caches addr idxs).2.1.getD i default) := by
  induction idxs with
  | nil => intro mem caches i; exact weakens_refl _
  | cons i0 rest ih =>
    intro mem caches i
    unfold snoop_shared_go
    dsimp only
    split
    · next j hj =>
      split
      · next hfm =>
        apply weakens_set_step
        apply weakens_trans (snoop_find_weakens _ addr false)
        apply weakens_setLine
        · rfl
        · exact Or.inr (Or.inr ⟨beq_iff_eq.mp hfm, rfl⟩)
      · next hfm =>
        exact weakens_set_step _ _ _ _ (snoop_find_weakens _ addr false)
    · next hnone =>
      refine weakens_trans ?_ (ih _ _ i)
      exact weakens_set_step _ _ _ _ (snoop_find_weakens _ addr false)

theorem snoop_exclusive_go_mem_geom (addr : Nat) (idxs : List Nat) :
    ∀ (mem : RamMemory) (caches : List CacheMemAssoc),
      (snoop_exclusive_go mem caches addr idxs).1.ppb = mem.ppb ∧
        (snoop_exclusive_go mem caches addr idxs).1.bpp = mem.bpp := by
  induction idxs with
  | nil => intro mem caches; exact ⟨rfl, rfl⟩
  | cons i0 rest ih =>
    intro mem caches
    unfold snoop_exclusive_go
    dsimp only
    split
    · split
      · exact ⟨rfl, rfl⟩
      · exact ih _ _
    · exact ih _ _

theorem snoop_shared_go_mem_geom (addr : Nat) (idxs : List Nat) :
    ∀ (mem : RamMemory) (caches : List CacheMemAssoc),
      (snoop_shared_go mem caches addr idxs).1.ppb = mem.ppb ∧
        (snoop_shared_go mem caches addr idxs).1.bpp = mem.bpp := by
  induction idxs with
  | nil => intro mem caches; exact ⟨rfl, rfl⟩
  | cons i0 rest ih =>
    intro mem caches
    unfold snoop_shared_go
    dsimp only
    split
    · split
      · exact ⟨rfl, rfl⟩
      · exact ⟨rfl, rfl⟩
    · exact ih _ _

theorem snoop_exclusive_busWeakens (bus : Bus) (addr requester : Nat) :
    busWeakens bus (bus.snoop_exclusive addr requester).1 := by
  have hgo := snoop_exclusive_go_weakens addr
    ((List.range bus.caches.length).filter (· ≠ requester)) bus.memory bus.caches
  have hlen := snoop_exclusive_go_length bus.memory bus.caches addr
    ((List.range bus.caches.length).filter (· ≠ requester))
  have hgeom := snoop_exclusive_go_mem_geom addr
    ((List.range bus.caches.length).filter (· ≠ requester)) bus.memory bus.caches
  unfold Bus.snoop_exclusive
  dsimp only
  split
  · next heq =>
    rw [heq] at hgo hlen hgeom
    exact ⟨hlen, hgeom.1, hgeom.2, hgo⟩
  · next heq =>
    rw [heq] at hgo hlen hgeom
    exact ⟨hlen, hgeom.1, hgeom.2, hgo⟩

theorem snoop_shared_busWeakens (bus : Bus) (addr requester : Nat) :
    busWeakens bus (bus.snoop_shared addr requester).1 := by
  have hgo := snoop_shared_go_weakens addr
    ((List.range bus.caches.length).filter (· ≠ requester)) bus.memory bus.caches
  have hlen := snoop_shared_go_length bus.memory bus.caches addr
    ((List.range bus.caches.length).filter (· ≠ requester))
  have hgeom := snoop_shared_go_mem_geom addr
    ((List.range bus.caches.length).filter (· ≠ requester)) bus.memory bus.caches
  unfold Bus.snoop_shared
  dsimp only
  split
  · next heq =>
    rw [heq] at hgo hlen hgeom
    exact ⟨hlen, hgeom.1, hgeom.2, hgo⟩
  · next heq =>
    rw [heq] at hgo hlen hgeom
    exact ⟨hlen, hgeom.1, hgeom.2, hgo⟩

theorem weakens_victim_update (c : CacheMemAssoc) (index f' : Nat) :
    weakens c
      { c with
        sets := c.sets.set index
            { c.sets.getD index default with
              fifo := f',
              lines := (c.sets.getD index default).lines.set
                  ((c.sets.getD index default).fifo)
                  { (c.sets.getD index default).lines.getD
                      ((c.sets.getD index default).fifo) default with
                    flag := FI } } } := by
  refine ⟨rfl, rfl, rfl, by simp, fun si => ?_, fun si j => ?_⟩
  · dsimp only
    by_cases he : si = index
    · subst he
      by_cases hl : si < c.sets.length
      · rw [getD_set_self _ _ _ _ hl]
        simp
      · rw [List.set_eq_of_length_le (by omega)]
    · rw [getD_set_ne _ _ _ _ _ (fun h => he h.symm)]
  · rw [lineAt_sets_set]
    split
    · next hcond =>
      obtain ⟨h1, h2⟩ := hcond
      subst h1
      dsimp only
      by_cases hj : j = (c.sets.getD si default).fifo ∧
          (c.sets.getD si default).fifo < (c.sets.getD si default).lines.length
      · rw [hj.1, getD_set_self _ _ _ _ hj.2]
        exact ⟨rfl, Or.inr (Or.inl rfl)⟩
      · have hres : ((c.sets.getD si default).lines.set
            ((c.sets.getD si default).fifo)
            { (c.sets.getD si default).lines.getD
                ((c.sets.getD si default).fifo) default with flag := FI }).getD j default =
            (c.sets.getD si default).lines.getD j default := by
          by_cases hfl : (c.sets.getD si default).fifo <
              (c.sets.getD si default).lines.length
          · exact getD_set_ne _ _ _ _ _ (fun h => hj ⟨h.symm, hfl⟩)
          · rw [List.set_eq_of_length_le (by omega)]
        rw [hres]
        exact ⟨rfl, Or.inl rfl⟩
    · exact ⟨rfl, Or.inl rfl⟩

theorem find_victim_busWeakens (bus : Bus) (ci index : Nat) :
    busWeakens bus (find_victim bus ci index).1 := by
  unfold find_victim
  dsimp only
  split
  · exact ⟨by simp [Bus.write_back], rfl, rfl,
      fun i => weakens_set_step _ _ _ _ (weakens_victim_update _ _ _)⟩
  · exact ⟨by simp, rfl, rfl,
      fun i => weakens_set_step _ _ _ _ (weakens_victim_update _ _ _)⟩

theorem weakens_set_lr (c : CacheMemAssoc) (v : Int) :
    weakens c { c with lr_dir := v } :=
  weakens_of_sets_eq rfl rfl rfl rfl

theorem busWeakens_refl (bus : Bus) : busWeakens bus bus :=
  ⟨rfl, rfl, rfl, fun _ => weakens_refl _⟩

theorem busWeakens_trans {a b c : Bus} (h1 : busWeakens a b) (h2 : busWeakens b c) :
    busWeakens a c :=
  ⟨h2.1.trans h1.1, h2.2.1.trans h1.2.1, h2.2.2.1.trans h1.2.2.1,
    fun i => weakens_trans (h1.2.2.2 i) (h2.2.2.2 i)⟩

theorem busWeakens_set_cache (bus : Bus) (ci : Nat) (c' : CacheMemAssoc)
    (h : weakens (bus.caches.getD ci default) c') :
    busWeakens bus { bus with caches := bus.caches.set ci c' } :=
  ⟨by simp, rfl, rfl, fun i => weakens_set_step _ _ _ _ h⟩

theorem clear_reserve_busWeakens (bus : Bus) (ci blk : Nat) :
    busWeakens bus (clear_reserve bus ci blk) := by
  unfold clear_reserve
  dsimp only
  split
  · exact busWeakens_set_cache _ _ _ (weakens_set_lr _ _)
  · exact busWeakens_refl _

theorem noValidTag_default (b : Nat) : noValidTag default b := by
  intro si j _
  rw [lineAt_oob default si j (Or.inl (Nat.zero_le si))]
  rfl

theorem not_hasFMtag_default (b : Nat) : ¬ hasFMtag default b := by
  rintro ⟨si, j, htag, hflag⟩
  rw [lineAt_oob default si j (Or.inl (Nat.zero_le si))] at hflag
  exact absurd hflag (by decide)

theorem not_hasFMtag_of_noValidTag {c : CacheMemAssoc} {b : Nat}
    (h : noValidTag c b) : ¬ hasFMtag c b := by
  rintro ⟨si, j, htag, hflag⟩
  have := h si j htag
  rw [this] at hflag
  exact absurd hflag (by decide)

/-- A Modified line with a given tag sits at an in-range position. -/
theorem hasFMtag_in_range {c : CacheMemAssoc} {b : Nat} (h : hasFMtag c b) :
    ∃ si, si < c.sets.length ∧ ∃ j, j < (c.sets.getD si default).lines.length ∧
      (lineAt c si j).tag = (b : Int) ∧ (lineAt c si j).flag = FM := by
  obtain ⟨si, j, htag, hflag⟩ := h
  by_cases hin : si < c.sets.length ∧ j < (c.sets.getD si default).lines.length
  · exact ⟨si, hin.1, j, hin.2, htag, hflag⟩
  · rw [lineAt_oob c si j (by omega)] at hflag
    exact absurd hflag (by decide)

/-- Pairwise form of the MSI invariant, free of range side conditions. -/
theorem msi_pairwise {bus : Bus} (h : msiOk bus) (b : Nat) :
    ∀ i1 i2, i1 < bus.caches.length → i2 < bus.caches.length → i1 ≠ i2 →
      hasFMtag (bus.caches.getD i1 default) b →
      noValidTag (bus.caches.getD i2 default) b := by
  intro i1 i2 hi1 hi2 hne hfm
  obtain ⟨s1, hs1, j1, hj1, htag1, hflag1⟩ := hasFMtag_in_range hfm
  intro si j htag
  by_cases hin : si < (bus.caches.getD i2 default).sets.length ∧
      j < ((bus.caches.getD i2 default).sets.getD si default).lines.length
  · exact h i1 hi1 i2 hi2 hne s1 hs1 j1 hj1 si hin.1 j hin.2 hflag1
      (by rw [htag, htag1])
  · rw [lineAt_oob _ si j (by omega)]
    rfl

theorem find_congr_sets {c c' : CacheMemAssoc} (h : c'.sets = c.sets)
    (index tag : Nat) : find c' index tag = find c index tag := by
  unfold find
  rw [h]

theorem lineAt_congr_sets {c c' : CacheMemAssoc} (h : c'.sets = c.sets)
    (si j : Nat) : lineAt c' si j = lineAt c si j := by
  unfold lineAt
  rw [h]

theorem hmsi_set_preserved (caches : List CacheMemAssoc) (i0 : Nat)
    (c2 : CacheMemAssoc) (b : Nat) (hw : weakens (caches.getD i0 default) c2)
    (hmsi : ∀ i1 i2, i1 ≠ i2 → hasFMtag (caches.getD i1 default) b →
      noValidTag (caches.getD i2 default) b) :
    ∀ i1 i2, i1 ≠ i2 → hasFMtag ((caches.set i0 c2).getD i1 default) b →
      noValidTag ((caches.set i0 c2).getD i2 default) b := by
  intro i1 i2 hne hfm
  exact noValidTag_of_weakens (weakens_set_step _ _ _ _ hw)
    (hmsi i1 i2 hne (hasFMtag_of_weakens (weakens_set_step _ _ _ _ hw) hfm))

/-- The snoop-exclusive loop invalidates, in every visited peer, every line
caching the requested block; an early stop at a Modified copy is covered by
the MSI hypothesis. -/
theorem snoop_exclusive_go_invalidates (addr b : Nat) (idxs : List Nat) :
    ∀ (mem : RamMemory) (caches : List CacheMemAssoc),
      (∀ i ∈ idxs, nodupTags (caches.getD i default) ∧
        placedTags (caches.getD i default) ∧
        (caches.getD i default).num_sets = (caches.getD i default).sets.length ∧
        addr / ((caches.getD i default).ppb * (caches.getD i default).bpp) = b) →
      (∀ i1 i2, i1 ≠ i2 → hasFMtag (caches.getD i1 default) b →
        noValidTag (caches.getD i2 default) b) →
      ∀ i ∈ idxs,
        noValidTag ((snoop_exclusive_go mem caches addr idxs).2.1.getD i default) b := by
  induction idxs with
  | nil => intro mem caches _ _ i hi; exact absurd hi (List.not_mem_nil i)
  | cons i0 rest ih =>
    intro mem caches hwf hmsi i hi
    obtain ⟨hnd0, hpl0, hns0, hgeo0⟩ := hwf i0 (List.mem_cons_self i0 rest)
    obtain ⟨hs1, hs2, hs3, hs4⟩ :=
      snoop_find_state (caches.getD i0 default) addr true
    have hw1 : weakens (caches.getD i0 default)
        (snoop_find (caches.getD i0 default) addr true).1 :=
      snoop_find_weakens _ addr true
    have hfind_eq : (snoop_find (caches.getD i0 default) addr true).2 =
        find (caches.getD i0 default)
          (addr / ((caches.getD i0 default).ppb * (caches.getD i0 default).bpp) %
            (caches.getD i0 default).num_sets)
          (addr / ((caches.getD i0 default).ppb * (caches.getD i0 default).bpp)) :=
      snoop_find_snd _ addr true
    rw [hgeo0] at hfind_eq
    unfold snoop_exclusive_go
    dsimp only [process_address]
    split
    · next j hj =>
      rw [hfind_eq] at hj
      have hi0len : i0 < caches.length := by
        by_contra hge
        have hdef : caches.getD i0 default = default := by
          rw [List.getD_eq_getElem?_getD, List.getElem?_eq_none (by omega)]
          rfl
        rw [hdef, find_oob default _ _ (Nat.zero_le _)] at hj
        exact Option.noConfusion hj
      have hfind1 : find (snoop_find (caches.getD i0 default) addr true).1
          (b % (snoop_find (caches.getD i0 default) addr true).1.num_sets) b = some j := by
        rw [find_congr_sets hs1, hs2]
        exact hj
      have hnv2 : noValidTag (setLine (snoop_find (caches.getD i0 default) addr true).1
          (b % (snoop_find (caches.getD i0 default) addr true).1.num_sets) j
          { lineAt (snoop_find (caches.getD i0 default) addr true).1
              (b % (snoop_find (caches.getD i0 default) addr true).1.num_sets) j with
            flag := FI }) b :=
        noValidTag_after_invalidate _ b j
          (nodupTags_of_weakens hw1 hnd0) (placedTags_of_weakens hw1 hpl0)
          (by rw [hs2, hns0, ← hs1]) hfind1
      have hw2 : weakens (caches.getD i0 default)
          (setLine (snoop_find (caches.getD i0 default) addr true).1
            (b % (snoop_find (caches.getD i0 default) addr true).1.num_sets) j
            { lineAt (snoop_find (caches.getD i0 default) addr true).1
                (b % (snoop_find (caches.getD i0 default) addr true).1.num_sets) j with
              flag := FI }) := by
        exact weakens_trans hw1 (weakens_setLine _ _ _ _ rfl (Or.inr (Or.inl rfl)))
      rw [hs3, hs4, hgeo0]
      split
      · next hfm =>
        by_cases hii : i0 = i
        · subst hii
          rw [getD_set_self _ _ _ _ hi0len]
          exact hnv2
        · rw [getD_set_ne _ _ _ _ _ hii]
          have hfm' : hasFMtag (caches.getD i0 default) b := by
            obtain ⟨hjlt, htag, hval⟩ := find_some_spec _ _ _ _ hfind1
            rw [lineAt_congr_sets hs1] at htag
            refine ⟨b % (snoop_find (caches.getD i0 default) addr true).1.num_sets, j,
              htag, ?_⟩
            have := beq_iff_eq.mp hfm
            rw [lineAt_congr_sets hs1] at this
            exact this
          exact hmsi i0 i hii hfm'
      · next hfm =>
        by_cases hii : i0 = i
        · subst hii
          refine noValidTag_of_weakens (snoop_exclusive_go_weakens addr rest _ _ i0) ?_
          rw [getD_set_self _ _ _ _ hi0len]
          exact hnv2
        · have hirest : i ∈ rest := by
            rcases List.mem_cons.mp hi with h | h
            · exact absurd h.symm hii
            · exact h
          refine ih mem _ ?_ (hmsi_set_preserved _ _ _ b hw2 hmsi) i hirest
          intro i' hi'
          by_cases hset : i0 = i'
          · subst hset
            rw [getD_set_self _ _ _ _ hi0len]
            refine ⟨nodupTags_of_weakens hw2 hnd0, placedTags_of_weakens hw2 hpl0, ?_, ?_⟩
            · rw [hw2.1, hw2.2.2.2.1]
              exact hns0
            · rw [hw2.2.1, hw2.2.2.1]
              exact hgeo0
          · rw [getD_set_ne _ _ _ _ _ hset]
            exact hwf i' (List.mem_cons_of_mem _ hi')
    · next hnone =>
      rw [hfind_eq] at hnone
      have hnvc : noValidTag (caches.getD i0 default) b :=
        noValidTag_of_find_none _ b hpl0 hns0 hnone
      by_cases hii : i0 = i
      · subst hii
        exact noValidTag_of_weakens
          (weakens_trans (weakens_set_step _ _ _ _ hw1)
            (snoop_exclusive_go_weakens addr rest _ _ i0)) hnvc
      · have hirest : i ∈ rest := by
          rcases List.mem_cons.mp hi with h | h
          · exact absurd h.symm hii
          · exact h
        refine ih mem _ ?_ (hmsi_set_preserved _ _ _ b hw1 hmsi) i hirest
        intro i' hi'
        by_cases hset : i0 = i'
        · subst hset
          by_cases hl : i0 < caches.length
          · rw [getD_set_self _ _ _ _ hl]
            refine ⟨nodupTags_of_weakens hw1 hnd0, placedTags_of_weakens hw1 hpl0, ?_, ?_⟩
            · rw [hw1.1, hw1.2.2.2.1]
              exact hns0
            · rw [hw1.2.1, hw1.2.2.1]
              exact hgeo0
          · rw [List.set_eq_of_length_le (by omega)]
            exact hwf i0 (List.mem_cons_self i0 rest)
        · rw [getD_set_ne _ _ _ _ _ hset]
          exact hwf i' (List.mem_cons_of_mem _ hi')

theorem noFM_after_setflag (c : CacheMemAssoc) (b j f : Nat)
    (hnd : nodupTags c) (hpl : placedTags c) (hns : c.num_sets = c.sets.length)
    (hfind : find c (b % c.num_sets) b = some j) (hf : f ≠ FM) :
    ¬ hasFMtag (setLine c (b % c.num_sets) j
      { lineAt c (b % c.num_sets) j with flag := f }) b := by
  have hidx : b % c.num_sets < c.sets.length := by
    by_contra hge
    rw [find_oob c _ b (by omega)] at hfind
    exact Option.noConfusion hfind
  obtain ⟨hjlt, htagj, hvj⟩ := find_some_spec c _ b j hfind
  rintro ⟨si, j', htag, hFM⟩
  rw [lineAt_setLine] at htag hFM
  by_cases hcond : si = b % c.num_sets ∧ b % c.num_sets < c.sets.length ∧ j' = j ∧
      j < (c.sets.getD (b % c.num_sets) default).lines.length
  · rw [if_pos hcond] at hFM
    exact hf hFM
  · rw [if_neg hcond] at htag hFM
    by_cases hin : si < c.sets.length ∧ j' < (c.sets.getD si default).lines.length
    · obtain ⟨hge, hplace⟩ := hpl si hin.1 j' hin.2 (by rw [hFM]; decide)
      have hsi : si = b % c.num_sets := by
        rw [← hplace, htag]
        simp
      subst hsi
      have hjj : j' ≠ j := fun he => hcond ⟨rfl, hidx, he, hjlt⟩
      exact hnd _ hidx j' hin.2 j hjlt hjj (by rw [hFM]; decide) hvj
        (by rw [htag, htagj])
    · rw [lineAt_oob c si j' (by omega)] at hFM
      exact absurd hFM (by decide)

theorem noFM_of_find_some_notFM (c : CacheMemAssoc) (b j : Nat)
    (hnd : nodupTags c) (hpl : placedTags c) (hns : c.num_sets = c.sets.length)
    (hfind : find c (b % c.num_sets) b = some j)
    (hflag : (lineAt c (b % c.num_sets) j).flag ≠ FM) : ¬ hasFMtag c b := by
  have hidx : b % c.num_sets < c.sets.length := by
    by_contra hge
    rw [find_oob c _ b (by omega)] at hfind
    exact Option.noConfusion hfind
  obtain ⟨hjlt, htagj, hvj⟩ := find_some_spec c _ b j hfind
  rintro ⟨si, j', htag, hFM⟩
  by_cases hin : si < c.sets.length ∧ j' < (c.sets.getD si default).lines.length
  · obtain ⟨hge, hplace⟩ := hpl si hin.1 j' hin.2 (by rw [hFM]; decide)
    have hsi : si = b % c.num_sets := by
      rw [← hplace, htag]
      simp
    subst hsi
    by_cases hjj : j' = j
    · subst hjj
      exact hflag hFM
    · exact hnd _ hidx j' hin.2 j hjlt hjj (by rw [hFM]; decide) hvj
        (by rw [htag, htagj])
  · rw [lineAt_oob c si j' (by omega)] at hFM
    exact absurd hFM (by decide)

/-- After the snoop-shared loop, no cache holds the requested block Modified
(the unique Modified copy, if any, is downgraded to Shared; a Shared hit
stops early, but MSI then excludes a Modified copy elsewhere). -/
theorem snoop_shared_go_noFM (addr b : Nat) (idxs : List Nat) :
    ∀ (mem : RamMemory) (caches : List CacheMemAssoc),
      (∀ i ∈ idxs, nodupTags (caches.getD i default) ∧
        placedTags (caches.getD i default) ∧
        (caches.getD i default).num_sets = (caches.getD i default).sets.length ∧
        addr / ((caches.getD i default).ppb * (caches.getD i default).bpp) = b) →
      (∀ i1 i2, i1 ≠ i2 → hasFMtag (caches.getD i1 default) b →
        noValidTag (caches.getD i2 default) b) →
      (∀ i, i ∉ idxs → ¬ hasFMtag (caches.getD i default) b) →
      ∀ i, ¬ hasFMtag ((snoop_shared_go mem caches addr idxs).2.1.getD i default) b := by
  induction idxs with
  | nil =>
    intro mem caches _ _ hreq i
    exact hreq i (List.not_mem_nil i)
  | cons i0 rest ih =>
    intro mem caches hwf hmsi hreq i
    obtain ⟨hnd0, hpl0, hns0, hgeo0⟩ := hwf i0 (List.mem_cons_self i0 rest)
    obtain ⟨hs1, hs2, hs3, hs4⟩ :=
      snoop_find_state (caches.getD i0 default) addr false
    have hw1 : weakens (caches.getD i0 default)
        (snoop_find (caches.getD i0 default) addr false).1 :=
      snoop_find_weakens _ addr false
    have hfind_eq : (snoop_find (caches.getD i0 default) addr false).2 =
        find (caches.getD i0 default)
          (addr / ((caches.getD i0 default).ppb * (caches.getD i0 default).bpp) %
            (caches.getD i0 default).num_sets)
          (addr / ((caches.getD i0 default).ppb * (caches.getD i0 default).bpp)) :=
      snoop_find_snd _ addr false
    rw [hgeo0] at hfind_eq
    unfold snoop_shared_go
    dsimp only [process_address]
    split
    · next j hj =>
      rw [hfind_eq] at hj
      have hi0len : i0 < caches.length := by
        by_contra hge
        have hdef : caches.getD i0 default = default := by
          rw [List.getD_eq_getElem?_getD, List.getElem?_eq_none (by omega)]
          rfl
        rw [hdef, find_oob default _ _ (Nat.zero_le _)] at hj
        exact Option.noConfusion hj
      have hfind1 : find (snoop_find (caches.getD i0 default) addr false).1
          (b % (snoop_find (caches.getD i0 default) addr false).1.num_sets) b = some j := by
        rw [find_congr_sets hs1, hs2]
        exact hj
      obtain ⟨hjlt, htagj, hvj⟩ := find_some_spec _ _ _ _ hfind1
      have hother : ∀ i', i' ≠ i0 → ¬ hasFMtag (caches.getD i' default) b := by
        intro i' hne hfm
        have hnv := hmsi i' i0 hne hfm
        have := hnv (b % (snoop_find (caches.getD i0 default) addr false).1.num_sets) j
          (by rw [← lineAt_congr_sets hs1]; exact htagj)
        rw [← lineAt_congr_sets hs1] at this
        exact hvj this
      rw [hs3, hs4, hgeo0]
      split
      · next hfm =>
        intro hfmres
        by_cases hii : i0 = i
        · subst hii
          rw [getD_set_self _ _ _ _ hi0len] at hfmres
          exact noFM_after_setflag _ b j FC
            (nodupTags_of_weakens hw1 hnd0) (placedTags_of_weakens hw1 hpl0)
            (by rw [hs2, hns0, ← hs1]) hfind1 (by decide) hfmres
        · rw [getD_set_ne _ _ _ _ _ hii] at hfmres
          exact hother i (fun h => hii h.symm) hfmres
      · next hfm =>
        intro hfmres
        by_cases hii : i0 = i
        · subst hii
          rw [getD_set_self _ _ _ _ hi0len] at hfmres
          refine noFM_of_find_some_notFM _ b j
            (nodupTags_of_weakens hw1 hnd0) (placedTags_of_weakens hw1 hpl0)
            (by rw [hs2, hns0, ← hs1]) hfind1 ?_ hfmres
          intro hFMj
          exact hfm (beq_iff_eq.mpr hFMj)
        · rw [getD_set_ne _ _ _ _ _ hii] at hfmres
          exact hother i (fun h => hii h.symm) hfmres
    · next hnone =>
      rw [hfind_eq] at hnone
      have hnvc : noValidTag (caches.getD i0 default) b :=
        noValidTag_of_find_none _ b hpl0 hns0 hnone
      refine ih mem _ ?_ (hmsi_set_preserved _ _ _ b hw1 hmsi) ?_ i
      · intro i' hi'
        by_cases hset : i0 = i'
        · subst hset
          by_cases hl : i0 < caches.length
          · rw [getD_set_self _ _ _ _ hl]
            refine ⟨nodupTags_of_weakens hw1 hnd0, placedTags_of_weakens hw1 hpl0, ?_, ?_⟩
            · rw [hw1.1, hw1.2.2.2.1]
              exact hns0
            · rw [hw1.2.1, hw1.2.2.1]
              exact hgeo0
          · rw [List.set_eq_of_length_le (by omega)]
            exact hwf i0 (List.mem_cons_self i0 rest)
        · rw [getD_set_ne _ _ _ _ _ hset]
          exact hwf i' (List.mem_cons_of_mem _ hi')
      · intro i' hi'
        by_cases hset : i0 = i'
        · subst hset
          by_cases hl : i0 < caches.length
          · rw [getD_set_self _ _ _ _ hl]
            exact not_hasFMtag_of_noValidTag (noValidTag_of_weakens hw1 hnvc)
          · rw [List.set_eq_of_length_le (by omega)]
            exact not_hasFMtag_of_noValidTag hnvc
        · rw [getD_set_ne _ _ _ _ _ hset]
          exact hreq i' (by
            intro hmem
            rcases List.mem_cons.mp hmem with h | h
            · exact hset h.symm
            · exact hi' h)

theorem getD_oob {α} (l : List α) (i : Nat) (d : α) (h : l.length ≤ i) :
    l.getD i d = d := by
  rw [List.getD_eq_getElem?_getD, List.getElem?_eq_none h]
  rfl

/-- Pairwise MSI hypothesis in the unbounded form used by the loop lemmas. -/
theorem msi_pairwise_all {bus : Bus} (h : msiOk bus) (b : Nat) :
    ∀ i1 i2, i1 ≠ i2 → hasFMtag (bus.caches.getD i1 default) b →
      noValidTag (bus.caches.getD i2 default) b := by
  intro i1 i2 hne hfm
  by_cases h1 : i1 < bus.caches.length
  · by_cases h2 : i2 < bus.caches.length
    · exact msi_pairwise h b i1 i2 h1 h2 hne hfm
    · rw [getD_oob _ _ _ (by omega)]
      exact noValidTag_default b
  · rw [getD_oob _ _ _ (by omega)] at hfm
    exact absurd hfm (not_hasFMtag_default b)

/-- After `Bus.snoop_exclusive`, no cache other than the requester holds any
non-Invalid line for the requested block. -/
theorem snoop_exclusive_clears_peers (bus : Bus) (addr requester : Nat)
    (hinv : busInv bus) :
    ∀ i < bus.caches.length, i ≠ requester →
      noValidTag ((bus.snoop_exclusive addr requester).1.caches.getD i default)
        (addr / (bus.memory.ppb * bus.memory.bpp)) := by
  have hwf : ∀ i ∈ (List.range bus.caches.length).filter (· ≠ requester),
      nodupTags (bus.caches.getD i default) ∧ placedTags (bus.caches.getD i default) ∧
      (bus.caches.getD i default).num_sets = (bus.caches.getD i default).sets.length ∧
      addr / ((bus.caches.getD i default).ppb * (bus.caches.getD i default).bpp) =
        addr / (bus.memory.ppb * bus.memory.bpp) := by
    intro i hi
    have hlt : i < bus.caches.length := by
      have := List.mem_filter.mp hi
      exact List.mem_range.mp this.1
    obtain ⟨hnd, hpl, hns, hpp, hbp⟩ := hinv.1 i hlt
    exact ⟨hnd, hpl, hns, by rw [hpp, hbp]⟩
  have hmsi := msi_pairwise_all hinv.2 (addr / (bus.memory.ppb * bus.memory.bpp))
  intro i hi hne
  have hmem : i ∈ (List.range bus.caches.length).filter (· ≠ requester) := by
    rw [List.mem_filter, List.mem_range]
    exact ⟨hi, by simpa using hne⟩
  have hgo := snoop_exclusive_go_invalidates addr
    (addr / (bus.memory.ppb * bus.memory.bpp))
    ((List.range bus.caches.length).filter (· ≠ requester))
    bus.memory bus.caches hwf hmsi i hmem
  unfold Bus.snoop_exclusive
  dsimp only
  split
  · next heq =>
    rw [heq] at hgo
    exact hgo
  · next heq =>
    rw [heq] at hgo
    exact hgo

/-- After `Bus.snoop_shared` no cache holds the requested block Modified,
provided the requester did not (peers are handled by the loop). -/
theorem snoop_shared_noFM (bus : Bus) (addr requester : Nat)
    (hinv : busInv bus)
    (hreq : ¬ hasFMtag (bus.caches.getD requester default)
      (addr / (bus.memory.ppb * bus.memory.bpp))) :
    ∀ i, ¬ hasFMtag ((bus.snoop_shared addr requester).1.caches.getD i default)
      (addr / (bus.memory.ppb * bus.memory.bpp)) := by
  have hwf : ∀ i ∈ (List.range bus.caches.length).filter (· ≠ requester),
      nodupTags (bus.caches.getD i default) ∧ placedTags (bus.caches.getD i default) ∧
      (bus.caches.getD i default).num_sets = (bus.caches.getD i default).sets.length ∧
      addr / ((bus.caches.getD i default).ppb * (bus.caches.getD i default).bpp) =
        addr / (bus.memory.ppb * bus.memory.bpp) := by
    intro i hi
    have hlt : i < bus.caches.length := by
      have := List.mem_filter.mp hi
      exact List.mem_range.mp this.1
    obtain ⟨hnd, hpl, hns, hpp, hbp⟩ := hinv.1 i hlt
    exact ⟨hnd, hpl, hns, by rw [hpp, hbp]⟩
  have hmsi := msi_pairwise_all hinv.2 (addr / (bus.memory.ppb * bus.memory.bpp))
  have hout : ∀ i, i ∉ (List.range bus.caches.length).filter (· ≠ requester) →
      ¬ hasFMtag (bus.caches.getD i default)
        (addr / (bus.memory.ppb * bus.memory.bpp)) := by
    intro i hnm
    by_cases hlt : i < bus.caches.length
    · by_cases he : i = requester
      · subst he
        exact hreq
      · exact absurd (by
          rw [List.mem_filter, List.mem_range]
          exact ⟨hlt, by simpa using he⟩) hnm
    · rw [getD_oob _ _ _ (by omega)]
      exact not_hasFMtag_default _
  intro i
  have hgo := snoop_shared_go_noFM addr
    (addr / (bus.memory.ppb * bus.memory.bpp))
    ((List.range bus.caches.length).filter (· ≠ requester))
    bus.memory bus.caches hwf hmsi hout i
  unfold Bus.snoop_shared
  dsimp only
  split
  · next heq =>
    rw [heq] at hgo
    exact hgo
  · next heq =>
    rw [heq] at hgo
    exact hgo

/-- A two-cache bus where cache 1 holds block 0 Shared: exercises
`Bus.snoop_exclusive` issued by cache 0. -/
def msiDemoBus : Bus :=
  { memory := { start_addr := 0, bpp := 4, ppb := 4, blocks := [[1, 1, 1, 1], [1, 1, 1, 1]] },
    caches := [{ assoc := 1, num_sets := 1, bpp := 4, ppb := 4,
                 sets := [{ fifo := 0,
                            lines := [{ tag := -1, flag := FI, data := [0, 0, 0, 0] }] }],
                 lr_dir := -1 },
               { assoc := 1, num_sets := 1, bpp := 4, ppb := 4,
                 sets := [{ fifo := 0,
                            lines := [{ tag := 0, flag := FC, data := [1, 1, 1, 1] }] }],
                 lr_dir := -1 }] }

/-- C5: after `Bus.snoop_exclusive addr requester` returns on a bus
satisfying the coherence invariant, no cache other than the requester holds
the block containing `addr` Shared or Modified: every peer line whose tag
matches that block number has flag Invalid. -/
theorem c5_snoop_exclusive_invalidates_peers (bus : Bus) (addr requester : Nat)
    (hinv : busInv bus) :
    ∀ i < bus.caches.length, i ≠ requester → ∀ si j,
      (lineAt ((bus.snoop_exclusive addr requester).1.caches.getD i default) si j).tag
          = ((addr / (bus.memory.ppb * bus.memory.bpp) : Nat) : Int) →
      (lineAt ((bus.snoop_exclusive addr requester).1.caches.getD i default) si j).flag
          = FI := by
  intro i hi hne
  exact snoop_exclusive_clears_peers bus addr requester hinv i hi hne

set_option synthInstance.maxSize 50000 in
set_option synthInstance.maxHeartbeats 2000000 in
theorem c5_witness :
    busInv msiDemoBus ∧
    ((lineAt ((msiDemoBus.snoop_exclusive 0 0).1.caches.getD 1 default) 0 0).tag
        = ((0 / (msiDemoBus.memory.ppb * msiDemoBus.memory.bpp) : Nat) : Int) →
      (lineAt ((msiDemoBus.snoop_exclusive 0 0).1.caches.getD 1 default) 0 0).flag = FI) := by
  have hinv : busInv msiDemoBus := by
    unfold busInv cacheWF msiOk nodupTags placedTags
    decide
  exact ⟨hinv,
    c5_snoop_exclusive_invalidates_peers msiDemoBus 0 0 hinv 1 (by decide) (by decide) 0 0⟩

/-- Exactly one valid copy: when `_find` locates the block at way `j`, every
other position holding the block's tag is Invalid. -/
theorem unique_valid_line (c : CacheMemAssoc) (b j : Nat)
    (hnd : nodupTags c) (hpl : placedTags c) (hns : c.num_sets = c.sets.length)
    (hfind : find c (b % c.num_sets) b = some j) :
    ∀ si j2, ¬(si = b % c.num_sets ∧ j2 = j) →
      (lineAt c si j2).tag = (b : Int) → (lineAt c si j2).flag = FI := by
  have hidx : b % c.num_sets < c.sets.length := by
    by_contra hge
    rw [find_oob c _ b (by omega)] at hfind
    exact Option.noConfusion hfind
  obtain ⟨hj, htagj, hvj⟩ := find_some_spec c _ b j hfind
  intro si j2 hnz htag
  by_cases hin : si < c.sets.length ∧ j2 < (c.sets.getD si default).lines.length
  · by_contra hv
    obtain ⟨hge, hplace⟩ := hpl si hin.1 j2 hin.2 hv
    have hsi : si = b % c.num_sets := by
      rw [← hplace, htag]
      simp
    subst hsi
    have hjj : j2 ≠ j := fun he => hnz ⟨rfl, he⟩
    exact hnd _ hidx j2 hin.2 j hj hjj hv hvj (by rw [htag, htagj])
  · rw [lineAt_oob c si j2 (by omega)]
    rfl

/-- Re-installing a weakened version of the cache already placed at `ci`
preserves the invariant (used for the trailing `lr_dir` updates). -/
theorem busInv_set_again (bus : Bus) (ci : Nat) (c2 c3 : CacheMemAssoc)
    (h : busInv { bus with caches := bus.caches.set ci c2 })
    (hw : weakens c2 c3) :
    busInv { bus with caches := bus.caches.set ci c3 } := by
  refine busInv_of_busWeakens ?_ h
  refine ⟨by simp, rfl, rfl, fun i => ?_⟩
  dsimp only
  by_cases he : ci = i
  · subst he
    by_cases hlt : ci < bus.caches.length
    · rw [getD_set_self _ _ _ _ hlt, getD_set_self _ _ _ _ hlt]
      exact hw
    · rw [List.set_eq_of_length_le (by omega), List.set_eq_of_length_le (by omega)]
      exact weakens_refl _
  · rw [getD_set_ne _ _ _ _ _ he, getD_set_ne _ _ _ _ _ he]
    exact weakens_refl _

/-- Installing a fresh line with tag `b` — placed in the set `b` selects,
Shared while no other cache holds `b` Modified, or Modified while no other
cache holds `b` at all, with no second valid copy of `b` in this cache —
preserves the invariant. -/
theorem busInv_install (bus : Bus) (ci index pos : Nat) (nl : CacheBlock) (b : Nat)
    (hci : ci < bus.caches.length)
    (hinv : busInv bus)
    (htag : nl.tag = (b : Int))
    (hidx : index = b % (bus.caches.getD ci default).num_sets)
    (hflag : nl.flag = FC ∨ nl.flag = FM)
    (hself : ∀ si j, ¬(si = index ∧ j = pos) →
      (lineAt (bus.caches.getD ci default) si j).tag = (b : Int) →
      (lineAt (bus.caches.getD ci default) si j).flag = FI)
    (hFM : nl.flag = FM → ∀ i, i ≠ ci → noValidTag (bus.caches.getD i default) b)
    (hnoFM : ∀ i, i ≠ ci → ¬ hasFMtag (bus.caches.getD i default) b) :
    busInv
      { bus with
        caches := bus.caches.set ci
            (setLine (bus.caches.getD ci default) index pos nl) } := by
  obtain ⟨hwf, hmsi⟩ := hinv
  obtain ⟨hnd, hpl, hns, hpp, hbp⟩ := hwf ci hci
  obtain ⟨g1, g2, g3, g4, _, g6⟩ :=
    setLine_geom (bus.caches.getD ci default) index pos nl
  constructor
  · intro i hi
    dsimp only at hi ⊢
    rw [List.length_set] at hi
    by_cases he : i = ci
    · subst he
      rw [getD_set_self _ _ _ _ hi]
      refine ⟨?_, ?_, by rw [g1, g4]; exact hns, g2.trans hpp, g3.trans hbp⟩
      · intro si hsi j1 hj1 j2 hj2 hne h1v h2v heq
        rw [g4] at hsi
        rw [g6] at hj1 hj2
        rw [lineAt_setLine] at h1v
        rw [lineAt_setLine] at h2v
        rw [lineAt_setLine, lineAt_setLine] at heq
        by_cases hc1 : si = index ∧ index < (bus.caches.getD i default).sets.length ∧
            j1 = pos ∧
            pos < (((bus.caches.getD i default).sets.getD index default)).lines.length
        · rw [if_pos hc1] at h1v heq
          by_cases hc2 : si = index ∧
              index < (bus.caches.getD i default).sets.length ∧ j2 = pos ∧
              pos < (((bus.caches.getD i default).sets.getD index default)).lines.length
          · exact hne (hc1.2.2.1.trans hc2.2.2.1.symm)
          · rw [if_neg hc2] at h2v heq
            have hnz : ¬(si = index ∧ j2 = pos) := by
              rintro ⟨_, hj2p⟩
              exact hc2 ⟨hc1.1, hc1.2.1, hj2p, hc1.2.2.2⟩
            exact h2v (hself si j2 hnz (heq.symm.trans htag))
        · rw [if_neg hc1] at h1v heq
          by_cases hc2 : si = index ∧
              index < (bus.caches.getD i default).sets.length ∧ j2 = pos ∧
              pos < (((bus.caches.getD i default).sets.getD index default)).lines.length
          · rw [if_pos hc2] at h2v heq
            have hnz : ¬(si = index ∧ j1 = pos) := by
              rintro ⟨_, hj1p⟩
              exact hc1 ⟨hc2.1, hc2.2.1, hj1p, hc2.2.2.2⟩
            exact h1v (hself si j1 hnz (heq.trans htag))
          · rw [if_neg hc2] at h2v heq
            exact hnd si hsi j1 hj1 j2 hj2 hne h1v h2v heq
      · intro si hsi j hj hv
        rw [g4] at hsi
        rw [g6] at hj
        rw [lineAt_setLine] at hv ⊢
        by_cases hc : si = index ∧ index < (bus.caches.getD i default).sets.length ∧
            j = pos ∧
            pos < (((bus.caches.getD i default).sets.getD index default)).lines.length
        · rw [if_pos hc]
          constructor
          · rw [htag]
            exact Int.natCast_nonneg b
          · rw [htag, g1]
            simp only [Int.toNat_natCast]
            rw [hc.1, hidx]
        · rw [if_neg hc] at hv ⊢
          obtain ⟨h0, hplc⟩ := hpl si hsi j hj hv
          exact ⟨h0, by rw [g1]; exact hplc⟩
    · rw [getD_set_ne _ _ _ _ _ (fun h => he h.symm)]
      exact hwf i hi
  · intro i1 hi1 i2 hi2 hne12 s1 hs1 j1 hj1 s2 hs2 j2 hj2 hfm htg
    dsimp only at hi1 hi2 hs1 hj1 hs2 hj2 hfm htg ⊢
    rw [List.length_set] at hi1 hi2
    by_cases he1 : i1 = ci
    · subst he1
      rw [getD_set_self _ _ _ _ hci] at hs1 hj1 hfm htg
      rw [getD_set_ne _ _ _ _ _ hne12] at hs2 hj2 htg ⊢
      rw [lineAt_setLine] at hfm
      rw [lineAt_setLine] at htg
      by_cases hc : s1 = index ∧ index < (bus.caches.getD i1 default).sets.length ∧
          j1 = pos ∧
          pos < (((bus.caches.getD i1 default).sets.getD index default)).lines.length
      · rw [if_pos hc] at hfm htg
        exact hFM hfm i2 (fun h => hne12 h.symm) s2 j2 (htg.trans htag)
      · rw [if_neg hc] at hfm htg
        rw [g4] at hs1
        rw [g6] at hj1
        exact hmsi i1 hci i2 hi2 hne12 s1 hs1 j1 hj1 s2 hs2 j2 hj2 hfm htg
    · by_cases he2 : i2 = ci
      · subst he2
        rw [getD_set_ne _ _ _ _ _ (fun h => he1 h.symm)] at hs1 hj1 hfm htg
        rw [getD_set_self _ _ _ _ hci] at hs2 hj2 htg ⊢
        rw [lineAt_setLine] at htg ⊢
        by_cases hc : s2 = index ∧ index < (bus.caches.getD i2 default).sets.length ∧
            j2 = pos ∧
            pos < (((bus.caches.getD i2 default).sets.getD index default)).lines.length
        · rw [if_pos hc] at htg ⊢
          exact absurd ⟨s1, j1, htg.symm.trans htag, hfm⟩ (hnoFM i1 he1)
        · rw [if_neg hc] at htg ⊢
          rw [g4] at hs2
          rw [g6] at hj2
          exact hmsi i1 hi1 i2 hci he1 s1 hs1 j1 hj1 s2 hs2 j2 hj2 hfm htg
      · rw [getD_set_ne _ _ _ _ _ (fun h => he1 h.symm)] at hs1 hj1 hfm htg
        rw [getD_set_ne _ _ _ _ _ (fun h => he2 h.symm)] at hs2 hj2 htg ⊢
        exact hmsi i1 hi1 i2 hi2 hne12 s1 hs1 j1 hj1 s2 hs2 j2 hj2 hfm htg

theorem cache_load_busInv (bus : Bus) (ci addr : Nat)
    (hci : ci < bus.caches.length) (hinv : busInv bus) :
    busInv (cache_load bus ci addr).1 := by
  obtain ⟨hnd, hpl, hns, hpp, hbp⟩ := hinv.1 ci hci
  unfold cache_load
  simp only [process_address]
  split
  · exact hinv
  · next hfind =>
    dsimp only
    set blkn := addr / ((bus.caches.getD ci default).ppb * (bus.caches.getD ci default).bpp) with hblkn
    set idx := blkn % (bus.caches.getD ci default).num_sets with hidx0
    set p := find_victim bus ci idx with hp
    set q := p.1.snoop_shared addr ci with hq
    rw [hidx0] at hfind
    have hw1 : busWeakens bus p.1 := by rw [hp]; exact find_victim_busWeakens bus ci idx
    have hinv1 : busInv p.1 := busInv_of_busWeakens hw1 hinv
    have hw2 : busWeakens p.1 q.1 := by rw [hq]; exact snoop_shared_busWeakens p.1 addr ci
    have hinv2 : busInv q.1 := busInv_of_busWeakens hw2 hinv1
    have hwc : weakens (bus.caches.getD ci default) (q.1.caches.getD ci default) :=
      weakens_trans (hw1.2.2.2 ci) (hw2.2.2.2 ci)
    have hci2 : ci < q.1.caches.length := by rw [hw2.1, hw1.1]; exact hci
    have hnv : noValidTag (bus.caches.getD ci default) blkn :=
      noValidTag_of_find_none _ _ hpl hns hfind
    have heqb : addr / (p.1.memory.ppb * p.1.memory.bpp) = blkn := by
      rw [hw1.2.1, hw1.2.2.1, hblkn, hpp, hbp]
    have hreqFM : ¬ hasFMtag (p.1.caches.getD ci default)
        (addr / (p.1.memory.ppb * p.1.memory.bpp)) := by
      rw [heqb]
      exact not_hasFMtag_of_noValidTag (noValidTag_of_weakens (hw1.2.2.2 ci) hnv)
    have hnoFM2 : ∀ i, ¬ hasFMtag (q.1.caches.getD i default) blkn := by
      intro i
      have h := snoop_shared_noFM p.1 addr ci hinv1 hreqFM i
      rw [← hq, heqb] at h
      exact h
    have hnv2 : noValidTag (q.1.caches.getD ci default) blkn :=
      noValidTag_of_weakens hwc hnv
    refine busInv_install q.1 ci idx p.2 _ blkn hci2 hinv2 rfl ?_ (Or.inl rfl) ?_ ?_ ?_
    · rw [hidx0, hwc.1]
    · exact fun si j _ htg => hnv2 si j htg
    · intro hFMeq
      exact absurd hFMeq (show FC ≠ FM by decide)
    · exact fun i _ => hnoFM2 i

theorem cache_load_reserved_busInv (bus : Bus) (ci addr : Nat)
    (hci : ci < bus.caches.length) (hinv : busInv bus) :
    busInv (cache_load_reserved bus ci addr).1 := by
  obtain ⟨hnd, hpl, hns, hpp, hbp⟩ := hinv.1 ci hci
  unfold cache_load_reserved
  simp only [process_address]
  split
  · exact busInv_of_busWeakens
      (busWeakens_set_cache bus ci _ (weakens_set_lr (bus.caches.getD ci default) _)) hinv
  · next hfind =>
    dsimp only
    set blkn := addr / ((bus.caches.getD ci default).ppb * (bus.caches.getD ci default).bpp) with hblkn
    set idx := blkn % (bus.caches.getD ci default).num_sets with hidx0
    set p := find_victim bus ci idx with hp
    set q := p.1.snoop_shared addr ci with hq
    rw [hidx0] at hfind
    have hw1 : busWeakens bus p.1 := by rw [hp]; exact find_victim_busWeakens bus ci idx
    have hinv1 : busInv p.1 := busInv_of_busWeakens hw1 hinv
    have hw2 : busWeakens p.1 q.1 := by rw [hq]; exact snoop_shared_busWeakens p.1 addr ci
    have hinv2 : busInv q.1 := busInv_of_busWeakens hw2 hinv1
    have hwc : weakens (bus.caches.getD ci default) (q.1.caches.getD ci default) :=
      weakens_trans (hw1.2.2.2 ci) (hw2.2.2.2 ci)
    have hci2 : ci < q.1.caches.length := by rw [hw2.1, hw1.1]; exact hci
    have hnv : noValidTag (bus.caches.getD ci default) blkn :=
      noValidTag_of_find_none _ _ hpl hns hfind
    have heqb : addr / (p.1.memory.ppb * p.1.memory.bpp) = blkn := by
      rw [hw1.2.1, hw1.2.2.1, hblkn, hpp, hbp]
    have hreqFM : ¬ hasFMtag (p.1.caches.getD ci default)
        (addr / (p.1.memory.ppb * p.1.memory.bpp)) := by
      rw [heqb]
      exact not_hasFMtag_of_noValidTag (noValidTag_of_weakens (hw1.2.2.2 ci) hnv)
    have hnoFM2 : ∀ i, ¬ hasFMtag (q.1.caches.getD i default) blkn := by
      intro i
      have h := snoop_shared_noFM p.1 addr ci hinv1 hreqFM i
      rw [← hq, heqb] at h
      exact h
    have hnv2 : noValidTag (q.1.caches.getD ci default) blkn :=
      noValidTag_of_weakens hwc hnv
    have hbase : busInv
        { q.1 with
          caches := q.1.caches.set ci
              (setLine (q.1.caches.getD ci default) idx p.2
                { lineAt (q.1.caches.getD ci default) idx p.2 with
                  data := q.2, flag := FC, tag := (blkn : Int) }) } := by
      refine busInv_install q.1 ci idx p.2 _ blkn hci2 hinv2 rfl ?_ (Or.inl rfl) ?_ ?_ ?_
      · rw [hidx0, hwc.1]
      · exact fun si j _ htg => hnv2 si j htg
      · intro hFMeq
        exact absurd hFMeq (show FC ≠ FM by decide)
      · exact fun i _ => hnoFM2 i
    exact busInv_set_again q.1 ci _ _ hbase (weakens_set_lr _ _)

theorem store_busphase_busInv (bus : Bus) (ci addr : Nat) (val : Int)
    (block_num offset index tag : Nat) (hit : Bool)
    (hci : ci < bus.caches.length) (hinv : busInv bus)
    (hblk : block_num = addr / (bus.memory.ppb * bus.memory.bpp))
    (htg : tag = block_num)
    (hix : index = block_num % (bus.caches.getD ci default).num_sets) :
    busInv (store_busphase bus ci addr val block_num offset index tag hit).1 := by
  obtain ⟨hnd, hpl, hns, hpp, hbp⟩ := hinv.1 ci hci
  unfold store_busphase
  dsimp only
  split
  · next j hfind =>
    dsimp only
    refine busInv_of_busWeakens (clear_reserve_busWeakens _ _ _) ?_
    split
    · next hfm =>
      exact busInv_of_busWeakens (busWeakens_set_cache bus ci _
        (weakens_setLine _ _ _ _ rfl (Or.inl (beq_iff_eq.mp hfm).symm))) hinv
    · next hfm =>
      set q := bus.snoop_exclusive addr ci with hq
      have hw2 : busWeakens bus q.1 := by rw [hq]; exact snoop_exclusive_busWeakens bus addr ci
      have hinv2 := busInv_of_busWeakens hw2 hinv
      have hci2 : ci < q.1.caches.length := by rw [hw2.1]; exact hci
      have hcreq : q.1.caches.getD ci default = bus.caches.getD ci default := by
        rw [hq]
        exact snoop_exclusive_requester bus addr ci
      obtain ⟨hjlt, htagj, hvj⟩ := find_some_spec _ _ _ _ hfind
      have hclr : ∀ i, i ≠ ci → noValidTag (q.1.caches.getD i default) block_num := by
        intro i hne
        by_cases hilt : i < bus.caches.length
        · have h := snoop_exclusive_clears_peers bus addr ci hinv i hilt hne
          rw [← hq] at h
          rw [hblk]
          exact h
        · rw [getD_oob _ _ _ (by rw [hw2.1]; omega)]
          exact noValidTag_default _
      refine busInv_install q.1 ci index j _ block_num hci2 hinv2 ?_ ?_ (Or.inr rfl) ?_ ?_ ?_
      · show (lineAt (q.1.caches.getD ci default) index j).tag = (block_num : Int)
        rw [hcreq, htagj, htg]
      · rw [hcreq, hix]
      · intro si j2 hnz htg2
        rw [hcreq] at htg2 ⊢
        refine unique_valid_line _ block_num j hnd hpl hns ?_ si j2 ?_ htg2
        · rw [← hix, ← htg]
          exact hfind
        · rw [← hix]
          exact hnz
      · exact fun _ => hclr
      · exact fun i hne => not_hasFMtag_of_noValidTag (hclr i hne)
  · next hfind =>
    dsimp only
    refine busInv_of_busWeakens (clear_reserve_busWeakens _ _ _) ?_
    set p := find_victim bus ci index with hp
    set q := p.1.snoop_exclusive addr ci with hq
    have hw1 : busWeakens bus p.1 := by rw [hp]; exact find_victim_busWeakens bus ci index
    have hinv1 := busInv_of_busWeakens hw1 hinv
    have hw2 : busWeakens p.1 q.1 := by rw [hq]; exact snoop_exclusive_busWeakens p.1 addr ci
    have hinv2 := busInv_of_busWeakens hw2 hinv1
    have hwc : weakens (bus.caches.getD ci default) (q.1.caches.getD ci default) :=
      weakens_trans (hw1.2.2.2 ci) (hw2.2.2.2 ci)
    have hci2 : ci < q.1.caches.length := by rw [hw2.1, hw1.1]; exact hci
    have hnv : noValidTag (bus.caches.getD ci default) block_num := by
      refine noValidTag_of_find_none _ _ hpl hns ?_
      rw [← hix, ← htg]
      exact hfind
    have hnv2 : noValidTag (q.1.caches.getD ci default) block_num :=
      noValidTag_of_weakens hwc hnv
    have hclr : ∀ i, i ≠ ci → noValidTag (q.1.caches.getD i default) block_num := by
      intro i hne
      by_cases hilt : i < p.1.caches.length
      · have h := snoop_exclusive_clears_peers p.1 addr ci hinv1 i hilt hne
        rw [← hq] at h
        have heqb : addr / (p.1.memory.ppb * p.1.memory.bpp) = block_num := by
          rw [hw1.2.1, hw1.2.2.1, hblk]
        rw [← heqb]
        exact h
      · rw [getD_oob _ _ _ (by rw [hw2.1]; omega)]
        exact noValidTag_default _
    refine busInv_install q.1 ci index p.2 _ block_num hci2 hinv2 rfl ?_ (Or.inr rfl) ?_ ?_ ?_
    · rw [hix, hwc.1]
    · exact fun si j _ h => hnv2 si j h
    · exact fun _ => hclr
    · exact fun i hne => not_hasFMtag_of_noValidTag (hclr i hne)

theorem sc_busphase_busInv (bus : Bus) (ci addr : Nat) (val : Int)
    (block_num offset index tag : Nat) (hit : Bool)
    (hci : ci < bus.caches.length) (hinv : busInv bus)
    (hblk : block_num = addr / (bus.memory.ppb * bus.memory.bpp))
    (htg : tag = block_num)
    (hix : index = block_num % (bus.caches.getD ci default).num_sets) :
    busInv (sc_busphase bus ci addr val block_num offset index tag hit).1 := by
  obtain ⟨hnd, hpl, hns, hpp, hbp⟩ := hinv.1 ci hci
  unfold sc_busphase
  dsimp only
  split
  · next j hfind =>
    dsimp only
    split
    · next hfm =>
      split
      · refine busInv_of_busWeakens (busWeakens_set_cache bus ci _ ?_) hinv
        refine weakens_trans ?_ (weakens_set_lr _ _)
        refine weakens_setLine _ _ _ _ rfl ?_
        exact Or.inl (beq_iff_eq.mp hfm).symm
      · refine busInv_of_busWeakens (busWeakens_set_cache bus ci _ ?_) hinv
        refine weakens_trans ?_ (weakens_set_lr _ _)
        refine weakens_setLine _ _ _ _ rfl ?_
        exact Or.inl (beq_iff_eq.mp hfm).symm
    · next hfm =>
      set q := bus.snoop_exclusive addr ci with hq
      have hw2 : busWeakens bus q.1 := by rw [hq]; exact snoop_exclusive_busWeakens bus addr ci
      have hinv2 := busInv_of_busWeakens hw2 hinv
      have hci2 : ci < q.1.caches.length := by rw [hw2.1]; exact hci
      have hcreq : q.1.caches.getD ci default = bus.caches.getD ci default := by
        rw [hq]
        exact snoop_exclusive_requester bus addr ci
      obtain ⟨hjlt, htagj, hvj⟩ := find_some_spec _ _ _ _ hfind
      have hclr : ∀ i, i ≠ ci → noValidTag (q.1.caches.getD i default) block_num := by
        intro i hne
        by_cases hilt : i < bus.caches.length
        · have h := snoop_exclusive_clears_peers bus addr ci hinv i hilt hne
          rw [← hq] at h
          rw [hblk]
          exact h
        · rw [getD_oob _ _ _ (by rw [hw2.1]; omega)]
          exact noValidTag_default _
      have hself : ∀ si j2, ¬(si = index ∧ j2 = j) →
          (lineAt (q.1.caches.getD ci default) si j2).tag = (block_num : Int) →
          (lineAt (q.1.caches.getD ci default) si j2).flag = FI := by
        intro si j2 hnz htg2
        rw [hcreq] at htg2 ⊢
        refine unique_valid_line _ block_num j hnd hpl hns ?_ si j2 ?_ htg2
        · rw [← hix, ← htg]
          exact hfind
        · rw [← hix]
          exact hnz
      split
      · refine busInv_set_again q.1 ci _ _ ?_ (weakens_set_lr _ _)
        refine busInv_install q.1 ci index j _ block_num hci2 hinv2 ?_ ?_ (Or.inr rfl) hself ?_ ?_
        · show (lineAt (q.1.caches.getD ci default) index j).tag = (block_num : Int)
          rw [hcreq, htagj, htg]
        · rw [hcreq, hix]
        · exact fun _ => hclr
        · exact fun i hne => not_hasFMtag_of_noValidTag (hclr i hne)
      · refine busInv_set_again q.1 ci _ _ ?_ (weakens_set_lr _ _)
        refine busInv_install q.1 ci index j _ block_num hci2 hinv2 ?_ ?_ (Or.inr rfl) hself ?_ ?_
        · show (lineAt (q.1.caches.getD ci default) index j).tag = (block_num : Int)
          rw [hcreq, htagj, htg]
        · rw [hcreq, hix]
        · exact fun _ => hclr
        · exact fun i hne => not_hasFMtag_of_noValidTag (hclr i hne)
  · next hfind =>
    dsimp only
    set p := find_victim bus ci index with hp
    set q := p.1.snoop_exclusive addr ci with hq
    have hw1 : busWeakens bus p.1 := by rw [hp]; exact find_victim_busWeakens bus ci index
    have hinv1 := busInv_of_busWeakens hw1 hinv
    have hw2 : busWeakens p.1 q.1 := by rw [hq]; exact snoop_exclusive_busWeakens p.1 addr ci
    have hinv2 := busInv_of_busWeakens hw2 hinv1
    have hwc : weakens (bus.caches.getD ci default) (q.1.caches.getD ci default) :=
      weakens_trans (hw1.2.2.2 ci) (hw2.2.2.2 ci)
    have hci2 : ci < q.1.caches.length := by rw [hw2.1, hw1.1]; exact hci
    have hnv : noValidTag (bus.caches.getD ci default) block_num := by
      refine noValidTag_of_find_none _ _ hpl hns ?_
      rw [← hix, ← htg]
      exact hfind
    have hnv2 : noValidTag (q.1.caches.getD ci default) block_num :=
      noValidTag_of_weakens hwc hnv
    have hclr : ∀ i, i ≠ ci → noValidTag (q.1.caches.getD i default) block_num := by
      intro i hne
      by_cases hilt : i < p.1.caches.length
      · have h := snoop_exclusive_clears_peers p.1 addr ci hinv1 i hilt hne
        rw [← hq] at h
        have heqb : addr / (p.1.memory.ppb * p.1.memory.bpp) = block_num := by
          rw [hw1.2.1, hw1.2.2.1, hblk]
        rw [← heqb]
        exact h
      · rw [getD_oob _ _ _ (by rw [hw2.1]; omega)]
        exact noValidTag_default _
    split
    · refine busInv_set_again q.1 ci _ _ ?_ (weakens_set_lr _ _)
      refine busInv_install q.1 ci index p.2 _ block_num hci2 hinv2 rfl ?_ (Or.inr rfl) ?_ ?_ ?_
      · rw [hix, hwc.1]
      · exact fun si j _ h => hnv2 si j h
      · exact fun _ => hclr
      · exact fun i hne => not_hasFMtag_of_noValidTag (hclr i hne)
    · refine busInv_set_again q.1 ci _ _ ?_ (weakens_set_lr _ _)
      refine busInv_install q.1 ci index p.2 _ block_num hci2 hinv2 rfl ?_ (Or.inr rfl) ?_ ?_ ?_
      · rw [hix, hwc.1]
      · exact fun si j _ h => hnv2 si j h
      · exact fun _ => hclr
      · exact fun i hne => not_hasFMtag_of_noValidTag (hclr i hne)

theorem store_conditional_busInv (bus : Bus) (ci addr : Nat) (val : Int)
    (hci : ci < bus.caches.length) (hinv : busInv bus) :
    busInv (store_conditional bus ci addr val).1 := by
  obtain ⟨hnd, hpl, hns, hpp, hbp⟩ := hinv.1 ci hci
  have hblk : addr / ((bus.caches.getD ci default).ppb * (bus.caches.getD ci default).bpp)
      = addr / (bus.memory.ppb * bus.memory.bpp) := by rw [hpp, hbp]
  unfold store_conditional
  simp only [process_address]
  split
  · exact hinv
  · split
    · next j hfind =>
      split
      · next hfm =>
        split
        · refine busInv_of_busWeakens (busWeakens_set_cache bus ci _ ?_) hinv
          refine weakens_trans ?_ (weakens_set_lr _ _)
          refine weakens_setLine _ _ _ _ rfl ?_
          exact Or.inl rfl
        · exact busInv_of_busWeakens (busWeakens_set_cache bus ci _
            (weakens_set_lr _ _)) hinv
      · exact sc_busphase_busInv bus ci addr val _ _ _ _ true hci hinv hblk rfl rfl
    · exact sc_busphase_busInv bus ci addr val _ _ _ _ false hci hinv hblk rfl rfl

theorem cache_store_busInv (bus : Bus) (ci addr : Nat) (val : Int)
    (hci : ci < bus.caches.length) (hinv : busInv bus) :
    busInv (cache_store bus ci addr val).1 := by
  obtain ⟨hnd, hpl, hns, hpp, hbp⟩ := hinv.1 ci hci
  have hblk : addr / ((bus.caches.getD ci default).ppb * (bus.caches.getD ci default).bpp)
      = addr / (bus.memory.ppb * bus.memory.bpp) := by rw [hpp, hbp]
  unfold cache_store
  simp only [process_address]
  split
  · next j hfind =>
    split
    · next hfm =>
      split
      · refine busInv_of_busWeakens (busWeakens_set_cache bus ci _ ?_) hinv
        refine weakens_trans ?_ (weakens_set_lr _ _)
        refine weakens_setLine _ _ _ _ rfl ?_
        exact Or.inl rfl
      · refine busInv_of_busWeakens (busWeakens_set_cache bus ci _ ?_) hinv
        refine weakens_setLine _ _ _ _ rfl ?_
        exact Or.inl rfl
    · exact store_busphase_busInv bus ci addr val _ _ _ _ true hci hinv hblk rfl rfl
  · exact store_busphase_busInv bus ci addr val _ _ _ _ false hci hinv hblk rfl rfl

/-- C4: the cycle-boundary coherence invariant — per-cache tag
well-formedness (`cacheWF`) together with MSI exclusivity (`msiOk`: at most
one cache holds any block Modified, and a Modified copy excludes Shared
copies of the block in every other cache) — is preserved by every cache
operation (`load`, `store`, `load_reserved`, `store_conditional`) and every
bus operation (`snoop_shared`, `snoop_exclusive`). -/
theorem c4_msi_invariant_preserved (bus : Bus) (ci addr requester : Nat) (val : Int)
    (hci : ci < bus.caches.length) (hinv : busInv bus) :
    busInv (cache_load bus ci addr).1 ∧
    busInv (cache_store bus ci addr val).1 ∧
    busInv (cache_load_reserved bus ci addr).1 ∧
    busInv (store_conditional bus ci addr val).1 ∧
    busInv (bus.snoop_shared addr requester).1 ∧
    busInv (bus.snoop_exclusive addr requester).1 :=
  ⟨cache_load_busInv bus ci addr hci hinv,
   cache_store_busInv bus ci addr val hci hinv,
   cache_load_reserved_busInv bus ci addr hci hinv,
   store_conditional_busInv bus ci addr val hci hinv,
   busInv_of_busWeakens (snoop_shared_busWeakens bus addr requester) hinv,
   busInv_of_busWeakens (snoop_exclusive_busWeakens bus addr requester) hinv⟩

set_option synthInstance.maxSize 50000 in
set_option synthInstance.maxHeartbeats 2000000 in
theorem c4_witness :
    (0 < msiDemoBus.caches.length ∧ busInv msiDemoBus) ∧
    (busInv (cache_load msiDemoBus 0 0).1 ∧
     busInv (cache_store msiDemoBus 0 0 7).1 ∧
     busInv (cache_load_reserved msiDemoBus 0 0).1 ∧
     busInv (store_conditional msiDemoBus 0 0 7).1 ∧
     busInv (msiDemoBus.snoop_shared 0 0).1 ∧
     busInv (msiDemoBus.snoop_exclusive 0 0).1) := by
  have hinv : busInv msiDemoBus := by
    unfold busInv cacheWF msiOk nodupTags placedTags
    decide
  exact ⟨⟨by decide, hinv⟩, c4_msi_invariant_preserved msiDemoBus 0 0 0 7 (by decide) hinv⟩
